import Mathlib

/-!
Verification of the sonarqube-prometheus-exporter core: the metric
registry / label-consistency subsystem (`pkg/prometheus.go`) and the
collection scheduler (`pkg/collector.go`), shallowly embedded in Lean.

Go maps from label name to label value are embedded as association
lists kept sorted by key with unique keys (`LMap`), so that Go's
extensional map equality (`reflect.DeepEqual`) coincides with list
equality on the canonical representation.  All maps manipulated by the
embedded code are built from the empty map by `LMap.insert` and
`List.filter`, which preserve the canonical form.
-/

namespace SonarExporter

/-! ### Byte-order string comparison

Go compares strings byte-wise lexicographically (`sort.Strings`,
`sort.SearchStrings`); on UTF-8 encoded strings byte order coincides
with code-point order, embedded here as a computable lexicographic
comparison on `String.data`. -/

def charLtb (a b : Char) : Bool := a.toNat < b.toNat

def strLtb : List Char → List Char → Bool
  | [], [] => false
  | [], _ :: _ => true
  | _ :: _, [] => false
  | a :: as, b :: bs =>
    if charLtb a b then true
    else if charLtb b a then false
    else strLtb as bs

/-- Go's `s < t` on strings. -/
def goLt (s t : String) : Bool := strLtb s.data t.data

/-- Go's `s <= t` on strings. -/
def goLe (s t : String) : Bool := !(goLt t s)

theorem char_eq_of_toNat_eq {a b : Char} (h : a.toNat = b.toNat) : a = b :=
  Char.eq_of_val_eq (UInt32.ext h)

theorem charLtb_irrefl (a : Char) : charLtb a a = false := by
  simp [charLtb]

theorem charLtb_trans {a b c : Char} (h1 : charLtb a b = true)
    (h2 : charLtb b c = true) : charLtb a c = true := by
  simp only [charLtb, decide_eq_true_eq] at *
  omega

theorem charLtb_antisymm {a b : Char} (h1 : charLtb a b = false)
    (h2 : charLtb b a = false) : a = b := by
  simp only [charLtb, decide_eq_false_iff_not, not_lt] at h1 h2
  exact char_eq_of_toNat_eq (le_antisymm h2 h1)

theorem strLtb_irrefl (l : List Char) : strLtb l l = false := by
  induction l with
  | nil => rfl
  | cons a as ih => simp [strLtb, charLtb_irrefl, ih]

theorem strLtb_antisymm : ∀ {a b : List Char}, strLtb a b = false →
    strLtb b a = false → a = b := by
  intro a
  induction a with
  | nil =>
    intro b h1 h2
    cases b with
    | nil => rfl
    | cons y ys => simp [strLtb] at h1
  | cons x xs ih =>
    intro b h1 h2
    cases b with
    | nil => simp [strLtb] at h2
    | cons y ys =>
      by_cases hxy : charLtb x y = true
      · simp [strLtb, hxy] at h1
      · by_cases hyx : charLtb y x = true
        · simp [strLtb, hyx] at h2
        · have hc : x = y :=
            charLtb_antisymm (Bool.eq_false_iff.mpr hxy) (Bool.eq_false_iff.mpr hyx)
          have h1' : strLtb xs ys = false := by
            simpa [strLtb, hxy, hyx] using h1
          have h2' : strLtb ys xs = false := by
            simpa [strLtb, hxy, hyx] using h2
          rw [hc, ih h1' h2']

theorem strLtb_trans : ∀ {a b c : List Char}, strLtb a b = true →
    strLtb b c = true → strLtb a c = true := by
  intro a
  induction a with
  | nil =>
    intro b c h1 h2
    cases b with
    | nil => simp [strLtb] at h1
    | cons y ys =>
      cases c with
      | nil => simp [strLtb] at h2
      | cons z zs => rfl
  | cons x xs ih =>
    intro b c h1 h2
    cases b with
    | nil => simp [strLtb] at h1
    | cons y ys =>
      cases c with
      | nil => simp [strLtb] at h2
      | cons z zs =>
        by_cases hxy : charLtb x y = true
        · by_cases hyz : charLtb y z = true
          · simp [strLtb, charLtb_trans hxy hyz]
          · by_cases hzy : charLtb z y = true
            · simp [strLtb, hyz, hzy] at h2
            · have hyzeq : y = z :=
                charLtb_antisymm (Bool.eq_false_iff.mpr hyz) (Bool.eq_false_iff.mpr hzy)
              simp [strLtb, hyzeq ▸ hxy]
        · by_cases hyx : charLtb y x = true
          · simp [strLtb, hxy, hyx] at h1
          · have hxyeq : x = y :=
              charLtb_antisymm (Bool.eq_false_iff.mpr hxy) (Bool.eq_false_iff.mpr hyx)
            have h1' : strLtb xs ys = true := by
              simpa [strLtb, hxy, hyx] using h1
            by_cases hyz : charLtb y z = true
            · simp [strLtb, hxyeq ▸ hyz]
            · by_cases hzy : charLtb z y = true
              · simp [strLtb, hyz, hzy] at h2
              · have h2' : strLtb ys zs = true := by
                  simpa [strLtb, hyz, hzy] using h2
                have hyzeq : y = z :=
                  charLtb_antisymm (Bool.eq_false_iff.mpr hyz) (Bool.eq_false_iff.mpr hzy)
                have hxz : charLtb x z = false := by
                  rw [← hyzeq, ← hxyeq]
                  exact charLtb_irrefl x
                have hzx : charLtb z x = false := by
                  rw [← hyzeq, ← hxyeq]
                  exact charLtb_irrefl x
                simp [strLtb, hxz, hzx, ih h1' h2']

theorem goLt_irrefl (s : String) : goLt s s = false := strLtb_irrefl _

theorem goLt_trans {a b c : String} (h1 : goLt a b = true) (h2 : goLt b c = true) :
    goLt a c = true := strLtb_trans h1 h2

theorem goEq_of_not_lt {a b : String} (h1 : goLt a b = false) (h2 : goLt b a = false) :
    a = b := by
  cases a with
  | mk d =>
    cases b with
    | mk d' => exact congrArg String.mk (strLtb_antisymm h1 h2)

theorem goLt_asymm {a b : String} (h : goLt a b = true) : goLt b a = false := by
  cases hc : goLt b a with
  | false => rfl
  | true =>
    have := goLt_trans h hc
    rw [goLt_irrefl] at this
    exact absurd this (by simp)

theorem goLt_connex {a b : String} (h1 : goLt a b = false) (h2 : a ≠ b) :
    goLt b a = true := by
  cases hc : goLt b a with
  | true => rfl
  | false => exact absurd (goEq_of_not_lt h1 hc) h2

theorem goLe_total (a b : String) : goLe a b = true ∨ goLe b a = true := by
  cases h : goLt b a with
  | false => exact Or.inl (by simp [goLe, h])
  | true => exact Or.inr (by simp [goLe, goLt_asymm h])

theorem goLe_trans {a b c : String} (h1 : goLe a b = true) (h2 : goLe b c = true) :
    goLe a c = true := by
  simp only [goLe, Bool.not_eq_true'] at h1 h2 ⊢
  cases hca : goLt c a with
  | false => rfl
  | true =>
    cases hcb : goLt c b with
    | true => rw [hcb] at h2; exact absurd h2 (by simp)
    | false =>
      cases hbc : goLt b c with
      | true =>
        have := goLt_trans hbc hca
        rw [this] at h1
        exact absurd h1 (by simp)
      | false =>
        have hbceq : b = c := goEq_of_not_lt hbc hcb
        rw [← hbceq] at hca
        rw [hca] at h1
        exact absurd h1 (by simp)

instance : IsTotal String (fun a b => goLe a b = true) := ⟨goLe_total⟩

instance : IsTrans String (fun a b => goLe a b = true) :=
  ⟨fun _ _ _ h1 h2 => goLe_trans h1 h2⟩

/-- Label maps: association lists from label name to label value,
kept sorted by key (strictly increasing, hence unique keys). -/
abbrev LMap := List (String × String)

/-- Sorted insert-or-replace, the embedding of Go's `labels[k] = v`. -/
def LMap.insert (k v : String) : LMap → LMap
  | [] => [(k, v)]
  | (k', v') :: m =>
    if k = k' then (k, v) :: m
    else if goLt k k' then (k, v) :: (k', v') :: m
    else (k', v') :: LMap.insert k v m

/-- Lookup, the embedding of Go's `labels[k]`. -/
def LMap.find (k : String) : LMap → Option String
  | [] => none
  | (k', v') :: m => if k = k' then some v' else LMap.find k m

/-- The canonical-form invariant: keys strictly increasing. -/
def LMap.Inv (m : LMap) : Prop := m.Pairwise (fun a b => goLt a.1 b.1 = true)

instance (m : LMap) : Decidable m.Inv := by
  unfold LMap.Inv; infer_instance

theorem LMap.inv_nil : LMap.Inv [] := List.Pairwise.nil

theorem LMap.inv_cons_iff {p : String × String} {m : LMap} :
    LMap.Inv (p :: m) ↔ (∀ q ∈ m, goLt p.1 q.1 = true) ∧ LMap.Inv m := by
  unfold LMap.Inv
  exact List.pairwise_cons

theorem LMap.mem_insert {m : LMap} {k v : String} {q : String × String}
    (hq : q ∈ m.insert k v) : q = (k, v) ∨ q ∈ m := by
  induction m with
  | nil => simp [LMap.insert] at hq; simp [hq]
  | cons p m ih =>
    by_cases e1 : k = p.1
    · simp [LMap.insert, e1] at hq
      rcases hq with h | h
      · exact Or.inl (by simp [h, e1])
      · exact Or.inr (List.mem_cons_of_mem p h)
    · by_cases e2 : goLt k p.1 = true
      · simp only [LMap.insert, if_neg e1, if_pos e2, List.mem_cons] at hq
        rcases hq with h | h
        · exact Or.inl h
        · exact Or.inr (List.mem_cons.mpr h)
      · simp only [LMap.insert, if_neg e1, if_neg e2, List.mem_cons] at hq
        rcases hq with h | h
        · exact Or.inr (by simp [h])
        · rcases ih h with h' | h'
          · exact Or.inl h'
          · exact Or.inr (List.mem_cons_of_mem p h')

theorem LMap.inv_insert {m : LMap} (k v : String) (h : m.Inv) :
    (m.insert k v).Inv := by
  induction m with
  | nil => simp [LMap.insert, LMap.Inv]
  | cons p m ih =>
    obtain ⟨hh, ht⟩ := LMap.inv_cons_iff.mp h
    by_cases h1 : k = p.1
    · subst h1
      simp only [LMap.insert, if_pos rfl]
      exact LMap.inv_cons_iff.mpr ⟨hh, ht⟩
    · by_cases h2 : goLt k p.1 = true
      · simp only [LMap.insert, if_neg h1, if_pos h2]
        refine LMap.inv_cons_iff.mpr ⟨?_, h⟩
        intro q hq
        rcases List.mem_cons.mp hq with h3 | h3
        · rw [h3]; exact h2
        · exact goLt_trans h2 (hh q h3)
      · simp only [LMap.insert, if_neg h1, if_neg h2]
        refine LMap.inv_cons_iff.mpr ⟨?_, ih ht⟩
        intro q hq
        rcases LMap.mem_insert hq with h3 | h3
        · rw [h3]
          exact goLt_connex (Bool.eq_false_iff.mpr h2) h1
        · exact hh q h3

theorem LMap.find_insert (m : LMap) (k v k' : String) (h : m.Inv) :
    (m.insert k v).find k' = if k' = k then some v else m.find k' := by
  induction m with
  | nil => by_cases e : k' = k <;> simp [LMap.insert, LMap.find, e]
  | cons p m ih =>
    obtain ⟨hh, ht⟩ := LMap.inv_cons_iff.mp h
    by_cases h1 : k = p.1
    · subst h1
      by_cases e : k' = p.1 <;> simp [LMap.insert, LMap.find, e]
    · by_cases h2 : goLt k p.1 = true
      · by_cases e : k' = k
        · subst e
          simp [LMap.insert, h1, h2, LMap.find]
        · by_cases e2 : k' = p.1 <;>
            simp [LMap.insert, h1, h2, LMap.find, e, e2]
      · by_cases e2 : k' = p.1
        · subst e2
          have hne : ¬ p.1 = k := fun e => h1 e.symm
          simp [LMap.insert, h1, h2, LMap.find, hne]
        · simp [LMap.insert, h1, h2, LMap.find, e2, ih ht]

/-- Keys of a label map. -/
def LMap.keys (m : LMap) : List String := m.map Prod.fst

theorem LMap.mem_keys_iff_find {m : LMap} {k : String} :
    k ∈ m.keys ↔ ∃ v, m.find k = some v := by
  induction m with
  | nil => simp [LMap.keys, LMap.find]
  | cons p m ih =>
    by_cases e : k = p.1
    · simp [LMap.keys, LMap.find, e]
    · simp only [LMap.keys, List.map_cons, List.mem_cons, LMap.find, if_neg e]
      constructor
      · rintro (h | h)
        · exact absurd h e
        · exact ih.mp h
      · intro h
        exact Or.inr (ih.mpr h)

theorem LMap.find_eq_none_of_not_mem {m : LMap} {k : String}
    (h : k ∉ m.keys) : m.find k = none := by
  cases hf : m.find k with
  | none => rfl
  | some v => exact absurd (LMap.mem_keys_iff_find.mpr ⟨v, hf⟩) h

/-! ### The label-name escaper

Go source (`pkg/prometheus.go`):
`promNamePattern = regexp.MustCompile("[^a-zA-Z_:]")` and
`escapeName(n) = promNamePattern.ReplaceAllString(n, "_")`.
The regexp matches one disallowed character at a time, so replacing
every match by `"_"` is exactly a character-wise map. -/

/-- A character allowed by `promNamePattern`, i.e. in `[a-zA-Z_:]`. -/
def isPromNameChar (c : Char) : Bool :=
  ('a' ≤ c && c ≤ 'z') || ('A' ≤ c && c ≤ 'Z') || c = '_' || c = ':'

/-- One step of `ReplaceAllString`: keep allowed characters, replace
disallowed ones with an underscore. -/
def escapeChar (c : Char) : Char :=
  if isPromNameChar c then c else '_'

/-- `escapeName` from `pkg/prometheus.go` (also `pkg/collector.go`). -/
def escapeName (n : String) : String :=
  ⟨n.data.map escapeChar⟩

/-- The spec's output contract, read literally as the regular
expression `[A-Za-z_:]+`: one or more characters from the class. -/
def matchesPromNamePlus (s : String) : Bool :=
  s.data ≠ [] && s.data.all isPromNameChar

/-! ### Splitting tags (`strings.SplitN(tag, sep, 2)`) -/

/-- `leadsWith pat l`: `pat` occurs at the start of `l`. -/
def leadsWith : List Char → List Char → Bool
  | [], _ => true
  | _ :: _, [] => false
  | a :: as, b :: bs => a = b && leadsWith as bs

/-- Split a list at the first occurrence of `sep`, the embedding of
`strings.SplitN(s, sep, 2)` for non-empty `sep`: `none` when `sep`
does not occur in `s` (Go returns the one-element slice `[s]`),
otherwise the parts before and after the first occurrence. -/
def splitFirst (sep : List Char) : List Char → Option (List Char × List Char)
  | [] => if leadsWith sep [] then some ([], []) else none
  | c :: cs =>
    if leadsWith sep (c :: cs) then some ([], (c :: cs).drop sep.length)
    else
      match splitFirst sep cs with
      | some (l, r) => some (c :: l, r)
      | none => none

/-! ### Value parsing (`strconv`) -/

/-- Model of `strconv.ParseBool`: the exact set of accepted strings. -/
def parseGoBool (s : String) : Option Bool :=
  if s = "1" || s = "t" || s = "T" || s = "TRUE" || s = "true" || s = "True" then
    some true
  else if s = "0" || s = "f" || s = "F" || s = "FALSE" || s = "false" || s = "False" then
    some false
  else none

/-- A binary64 value as handled by the exporter: a finite number
(kept as an exact rational), an infinity, or NaN. -/
inductive GoFloat where
  | num (q : ℚ)
  | posInf
  | negInf
  | nan
deriving DecidableEq

def isDigitCh (c : Char) : Bool := '0' ≤ c && c ≤ '9'

def digitsVal (l : List Char) : Nat :=
  l.foldl (fun a c => a * 10 + (c.toNat - 48)) 0

/-- Mantissa of a decimal literal: digits with an optional fractional
part, at least one digit overall; returns its value and the rest. -/
def parseMantissa (l : List Char) : Option (ℚ × List Char) :=
  let ip := l.takeWhile isDigitCh
  let rest := l.dropWhile isDigitCh
  match rest with
  | '.' :: r2 =>
    let fp := r2.takeWhile isDigitCh
    let r3 := r2.dropWhile isDigitCh
    if ip.isEmpty && fp.isEmpty then none
    else some ((digitsVal ip : ℚ) + (digitsVal fp : ℚ) / ((10 : ℚ) ^ fp.length), r3)
  | _ => if ip.isEmpty then none else some ((digitsVal ip : ℚ), rest)

/-- Optional exponent suffix; returns the power-of-ten multiplier and
requires the input to be fully consumed. -/
def parseExpPart : List Char → Option ℚ
  | [] => some 1
  | c :: r =>
    if c = 'e' || c = 'E' then
      let sr : Bool × List Char :=
        match r with
        | '+' :: t => (false, t)
        | '-' :: t => (true, t)
        | t => (false, t)
      let ds := sr.2.takeWhile isDigitCh
      let r3 := sr.2.dropWhile isDigitCh
      if ds.isEmpty || !r3.isEmpty then none
      else if sr.1 then some (((10 : ℚ) ^ digitsVal ds)⁻¹)
      else some ((10 : ℚ) ^ digitsVal ds)
    else none

/-- A full decimal floating-point literal with optional sign. -/
def parseDecimal (l : List Char) : Option ℚ := do
  let sl : Bool × List Char :=
    match l with
    | '+' :: t => (false, t)
    | '-' :: t => (true, t)
    | t => (false, t)
  let (m, rest) ← parseMantissa sl.2
  let e ← parseExpPart rest
  let v := m * e
  pure (if sl.1 then -v else v)

/-- Special forms accepted by `strconv.ParseFloat`: case-insensitive
NaN and optionally signed infinities. -/
def parseSpecial (s : List Char) : Option GoFloat :=
  let low := s.map Char.toLower
  if low = "nan".data then some .nan
  else
    let sr : Bool × List Char :=
      match low with
      | '+' :: t => (false, t)
      | '-' :: t => (true, t)
      | t => (false, t)
    if sr.2 = "inf".data || sr.2 = "infinity".data then
      some (if sr.1 then .negInf else .posInf)
    else none

/-- Model of `strconv.ParseFloat(s, 64)` on its decimal and special
forms, with exact rational values (hexadecimal floats, underscore
digit separators and rounding to binary64 are outside the scope of
the claims and are not modelled). -/
def parseGoFloat (s : String) : Option GoFloat :=
  match parseSpecial s.data with
  | some f => some f
  | none => (parseDecimal s.data).map GoFloat.num

/-! ### Data model (`main/models.go`) -/

/-- `Metric`: the fields the core reads. -/
structure Metric where
  key : String
  type : String
  name : String
  description : String
deriving DecidableEq

structure MeasurePeriod where
  value : String
  bestValue : Bool
deriving DecidableEq

/-- `Measure`: one raw measurement. -/
structure Measure where
  metric : String
  value : String
  period : MeasurePeriod
deriving DecidableEq

structure MeasuresComponent where
  key : String
  name : String
  measures : List Measure
deriving DecidableEq

/-- `Measures`: the payload of one measures fetch. -/
structure Measures where
  component : MeasuresComponent
deriving DecidableEq

/-- `Component`: the fields `reportComponent` reads. -/
structure SonarComponent where
  key : String
  tags : List String
deriving DecidableEq

/-! ### The prometheus client library surface used by the exporter -/

/-- One `prometheus.GaugeVec`: its variable label names and its live
series points, keyed by the full label-value assignment. -/
structure GaugeVec where
  labelNames : List String
  points : List (LMap × GoFloat)
deriving DecidableEq

/-- `With(labels).Set(v)`: create or overwrite the point keyed by
`labels`. -/
def GaugeVec.setPoint (g : GaugeVec) (labels : LMap) (v : GoFloat) : GaugeVec :=
  { g with points :=
      if g.points.any (fun p => decide (p.1 = labels)) then
        g.points.map (fun p => if p.1 = labels then (labels, v) else p)
      else g.points ++ [(labels, v)] }

/-- `Delete(labels)`: drop the point keyed by `labels`. -/
def GaugeVec.deletePoint (g : GaugeVec) (labels : LMap) : GaugeVec :=
  { g with points := g.points.filter (fun p => decide (p.1 ≠ labels)) }

/-- Whether a point keyed by `labels` is live in the gauge vector. -/
def GaugeVec.live (g : GaugeVec) (labels : LMap) : Bool :=
  g.points.any (fun p => decide (p.1 = labels))

/-- The default prometheus registry, modelled by the set of fully
qualified series names it has accepted so far (`prometheus.Register`
errors on a name it has already seen). -/
abbrev PromRegistry := List String

/-- `prometheus.BuildFQName(ns, "", name)`. -/
def buildFQName (ns name : String) : String :=
  if ns = "" then name else ns ++ "_" ++ name

/-! ### The exporter (`pkg/prometheus.go`) -/

/-- `promMetric`: a registered gauge vector plus the sonar type of its
measurement kind. -/
structure PromMetric where
  gauge : GaugeVec
  metricType : String
deriving DecidableEq

/-- `PrometheusExporter` (`pkg/prometheus.go`); the `sync.RWMutex` only
serializes `Report` calls and is not part of the functional state.
The Go maps `metrics` and `componentLabels` are embedded as
association lists. -/
structure PrometheusExporter where
  ns : String
  labels : List String
  staticLabels : LMap
  exportEmptyLabels : Bool
  metrics : List (String × PromMetric)
  componentLabels : List (String × LMap)
deriving DecidableEq

/-- Association-list lookup, the embedding of Go's `m[k]` for the
exporter's two internal maps. -/
def findA {α : Type} (k : String) : List (String × α) → Option α
  | [] => none
  | p :: m => if k = p.1 then some p.2 else findA k m

/-- Association-list insert-or-replace, the embedding of `m[k] = v`. -/
def updateA {α : Type} (k : String) (v : α) : List (String × α) → List (String × α)
  | [] => [(k, v)]
  | p :: m => if k = p.1 then (k, v) :: m else p :: updateA k v m

def componentNameLabel : String := "component"

def unsupportedMetricTypes : List String := ["DATA"]

/-- `NewPrometheusExporter`: escape the configured label names, append
the component-identity label, sort alphabetically. -/
def NewPrometheusExporter (ns : String) (staticLabels : LMap)
    (labels : List String) (exportEmptyLabels : Bool) : PrometheusExporter :=
  let escaped := labels.map escapeName
  let all := escaped ++ [componentNameLabel]
  { ns := ns
    labels := all.insertionSort (fun a b => goLe a b = true)
    staticLabels := staticLabels
    exportEmptyLabels := exportEmptyLabels
    metrics := []
    componentLabels := [] }

/-- `supportsMetric` (`pkg/prometheus.go`). -/
def PrometheusExporter.supportsMetric (_pe : PrometheusExporter) (m : Metric) : Bool :=
  !(decide (m.type ∈ unsupportedMetricTypes))

/-- `sort.SearchStrings(a, x)`: the smallest index `i` with `a[i] ≥ x`.
The Go implementation is a binary search, specified (and correct) only
on sorted input, which is how the exporter uses it. -/
def searchStrings (a : List String) (x : String) : Nat :=
  (a.takeWhile (fun s => goLt s x)).length

/-- `supportsLabel` (`pkg/prometheus.go`). -/
def PrometheusExporter.supportsLabel (pe : PrometheusExporter) (l : String) : Bool :=
  let idx := searchStrings pe.labels l
  decide (idx < pe.labels.length) && decide (pe.labels.getD idx "" = l)

/-- `fillDefaults` (`pkg/prometheus.go`): the in-place mutation of the
caller's map is modelled by returning the new map. -/
def PrometheusExporter.fillDefaults (pe : PrometheusExporter) (labels : LMap)
    (component : String) : LMap :=
  let labels := labels.insert componentNameLabel component
  if pe.exportEmptyLabels then
    pe.labels.foldl (fun m l => if (m.find l).isNone then m.insert l "" else m) labels
  else labels

/-- `filterSupported` (`pkg/prometheus.go`). -/
def PrometheusExporter.filterSupported (pe : PrometheusExporter) (labels : LMap) : LMap :=
  labels.filter (fun p => pe.supportsLabel p.1)

/-- `getFloatValue` (`pkg/prometheus.go`). -/
def PrometheusExporter.getFloatValue (_pe : PrometheusExporter) (mType : String)
    (measure : Measure) : Except String GoFloat :=
  let strVal := if measure.value ≠ "" then measure.value else measure.period.value
  if mType = "BOOL" then
    match parseGoBool strVal with
    | some true => .ok (.num 1)
    | some false => .ok (.num 0)
    | none => .ok (.num 0)
  else
    match parseGoFloat strVal with
    | some f => .ok f
    | none => .error strVal

/-- `checkStaleLabels` (`pkg/prometheus.go`): `metricKey` identifies
the `promMetric` the Go code received a pointer to. -/
def PrometheusExporter.checkStaleLabels (pe : PrometheusExporter) (component : String)
    (metricKey : String) (labels : LMap) : PrometheusExporter :=
  match findA component pe.componentLabels with
  | none => { pe with componentLabels := updateA component labels pe.componentLabels }
  | some oldLabels =>
    if labels ≠ oldLabels then
      { pe with
        metrics := pe.metrics.map (fun p : String × PromMetric =>
          if p.1 = metricKey then
            (p.1, { p.2 with gauge := p.2.gauge.deletePoint oldLabels })
          else p)
        componentLabels := updateA component labels pe.componentLabels }
    else pe

/-- One iteration of `Report`'s measure loop: skip unknown kinds, skip
measures whose value does not coerce, otherwise set the series point
and run stale-label eviction. -/
def PrometheusExporter.reportOne (pe : PrometheusExporter) (component : String)
    (labels : LMap) (measure : Measure) : PrometheusExporter :=
  match findA measure.metric pe.metrics with
  | none => pe
  | some pMetric =>
    match pe.getFloatValue pMetric.metricType measure with
    | .error _ => pe
    | .ok val =>
      let pe' := { pe with
        metrics := pe.metrics.map (fun p : String × PromMetric =>
          if p.1 = measure.metric then
            (p.1, { p.2 with gauge := p.2.gauge.setPoint labels val })
          else p) }
      pe'.checkStaleLabels component measure.metric labels

/-- The result of `Report`: the updated exporter, the caller's label
map after the in-place mutations, and whether a nil `measures` pointer
was dereferenced (a panic, recovered by the calling goroutine). -/
inductive ReportOutcome where
  | ok (pe : PrometheusExporter) (labels : LMap)
  | panicked (pe : PrometheusExporter) (labels : LMap)
deriving DecidableEq

def ReportOutcome.state : ReportOutcome → PrometheusExporter
  | .ok pe _ => pe
  | .panicked pe _ => pe

def ReportOutcome.callerLabels : ReportOutcome → LMap
  | .ok _ l => l
  | .panicked _ l => l

/-- `Report` (`pkg/prometheus.go`).  The Go signature takes a possibly
nil `*Measures` (`none` here); dereferencing it panics only after the
label bookkeeping and the cardinality check. -/
def PrometheusExporter.Report (pe : PrometheusExporter) (component : String)
    (labels : LMap) (measures : Option Measures) : ReportOutcome :=
  let labels := pe.fillDefaults labels component
  let labels := pe.filterSupported labels
  if labels.length ≠ pe.labels.length then .ok pe labels
  else
    match measures with
    | none => .panicked pe labels
    | some ms =>
      .ok (ms.component.measures.foldl (fun s m => s.reportOne component labels m) pe)
        labels

/-- The outcome of `registerMetrics`: the exporter and prometheus
registry after all mutations, plus the returned names or the error. -/
structure RegisterResult where
  pe : PrometheusExporter
  registry : PromRegistry
  res : Except String (List String)

/-- `registerMetrics` (`pkg/prometheus.go`): register a gauge vector
for each catalog entry that is not yet in `pe.metrics` and whose type
is supported; a registration collision aborts immediately. -/
def PrometheusExporter.registerMetrics :
    PrometheusExporter → PromRegistry → List Metric → RegisterResult
  | pe, reg, [] => ⟨pe, reg, .ok []⟩
  | pe, reg, m :: rest =>
    if (findA m.key pe.metrics).isSome then
      pe.registerMetrics reg rest
    else if !(pe.supportsMetric m) then
      pe.registerMetrics reg rest
    else
      let fq := buildFQName pe.ns m.key
      if fq ∈ reg then
        ⟨pe, reg, .error "unable to register metric"⟩
      else
        let pe' := { pe with
          metrics := pe.metrics ++ [(m.key, (⟨⟨pe.labels, []⟩, m.type⟩ : PromMetric))] }
        match pe'.registerMetrics (fq :: reg) rest with
        | ⟨pe2, reg2, .ok names⟩ => ⟨pe2, reg2, .ok (m.key :: names)⟩
        | e => e

/-- `InitMetrics` (`pkg/prometheus.go`). -/
def PrometheusExporter.InitMetrics (pe : PrometheusExporter) (reg : PromRegistry)
    (metrics : List Metric) : RegisterResult :=
  pe.registerMetrics reg metrics

/-! ### The collector (`pkg/collector.go`, most evolved version) -/

/-- `Collector`: its configuration state; the sonar client is an
external collaborator whose responses are passed in explicitly. -/
structure Collector where
  tagSeparator : String
  ns : String
  tagLabels : List String
  staticLabels : LMap
  exportEmptyLabels : Bool
deriving DecidableEq

/-- `tagsToLabels` (`pkg/collector.go`). -/
def Collector.tagsToLabels (c : Collector) (tags : List String) : LMap :=
  if c.tagSeparator = "" then []
  else
    tags.foldl (fun (m : LMap) tag =>
      match splitFirst c.tagSeparator.data tag.data with
      | some (l, r) => LMap.insert (escapeName ⟨l⟩) (⟨r⟩ : String) m
      | none => m) ([] : LMap)

/-- Outcome of one per-component reporting goroutine: either it ran to
completion, or it panicked and the deferred `recover` installed in
`Schedule`'s goroutine caught and logged it; either way the process
and the other components' tasks continue. -/
inductive TaskOutcome where
  | completed (pe : PrometheusExporter)
  | recovered (pe : PrometheusExporter)
deriving DecidableEq

def TaskOutcome.state : TaskOutcome → PrometheusExporter
  | .completed pe => pe
  | .recovered pe => pe

/-- `reportComponent` (`pkg/collector.go`) as run inside its goroutine.
`component` is what `sonar.GetComponent` returned (`none` models the
nil pointer that comes back when the fetch fails) and `measures` what
`sonar.GetMeasures` returned (`none` on fetch failure).  After a
failed component fetch the code logs and continues, so `component.Key`
dereferences nil and panics before `Report`; after a failed measures
fetch `Report` is still invoked and dereferences nil inside.  The
second component of the result records whether `exporter.Report` was
invoked. -/
def Collector.reportComponentRun (c : Collector) (pe : PrometheusExporter)
    (component : Option SonarComponent) (measures : Option Measures) :
    TaskOutcome × Bool :=
  match component with
  | none => (.recovered pe, false)
  | some comp =>
    let labels := c.tagsToLabels comp.tags
    match pe.Report comp.key labels measures with
    | .ok pe' _ => (.completed pe', true)
    | .panicked pe' _ => (.recovered pe', true)

/-- The state handed to the polling goroutine when startup succeeds. -/
structure StartedPolling where
  exporter : PrometheusExporter
  registry : PromRegistry
  metricNames : List String

/-- The startup phase of `Schedule` (`pkg/collector.go`):
`getMetricsRes` is what `sonar.GetMetrics()` returned.  On success the
polling goroutine is started (exactly once) with the freshly built
exporter and the registered metric names; on any fatal condition an
error is returned and polling never starts. -/
def Collector.Schedule (c : Collector) (reg : PromRegistry)
    (getMetricsRes : Except String (List Metric)) : Except String StartedPolling :=
  match getMetricsRes with
  | .error e => .error ("unable to get sonar metrics: " ++ e)
  | .ok allMetrics =>
    let exporter := NewPrometheusExporter c.ns c.staticLabels c.tagLabels c.exportEmptyLabels
    match exporter.InitMetrics reg allMetrics with
    | ⟨_, _, .error e⟩ => .error ("unable to init metrics exporter: " ++ e)
    | ⟨pe, reg', .ok names⟩ =>
      if names.length = 0 then .error "no metrics to gather detected"
      else .ok ⟨pe, reg', names⟩

/-- Reference enumeration used to state C6: the keys of the catalog
entries that are not yet registered (tracking the keys registered
earlier in the same pass) and whose type is supported, in catalog
order. -/
def newKeys (registeredKeys : List String) : List Metric → List String
  | [] => []
  | m :: rest =>
    if m.key ∈ registeredKeys then newKeys registeredKeys rest
    else if m.type ∈ unsupportedMetricTypes then newKeys registeredKeys rest
    else m.key :: newKeys (registeredKeys ++ [m.key]) rest

/-- Prepend already-collected names to a `registerMetrics` outcome. -/
def RegisterResult.withNames (ns1 : List String) (r : RegisterResult) : RegisterResult :=
  ⟨r.pe, r.registry,
    match r.res with
    | .ok ns => .ok (ns1 ++ ns)
    | .error e => .error e⟩

/-- Every registered gauge vector carries the exporter's LabelSet as
its variable label names. -/
def gaugesCarryLabelSet (pe : PrometheusExporter) : Prop :=
  ∀ p ∈ pe.metrics, p.2.gauge.labelNames = pe.labels

instance (pe : PrometheusExporter) : Decidable (gaugesCarryLabelSet pe) := by
  unfold gaugesCarryLabelSet
  infer_instance

/-! ### Concrete instances used by witnesses -/

def exCollector : Collector := ⟨"#", "sonar", ["team"], [], false⟩

def exExporter0 : PrometheusExporter :=
  NewPrometheusExporter "sonar" [] ["team"] false

def exCatalog : List Metric :=
  [⟨"bugs", "INT", "Bugs", "Number of bugs"⟩,
   ⟨"vulns", "INT", "Vulnerabilities", "Number of vulnerabilities"⟩]

def exExporter : PrometheusExporter := (exExporter0.registerMetrics [] exCatalog).pe

def exMeasure (k v : String) : Measure := ⟨k, v, ⟨"", false⟩⟩

def exMeasures : Measures :=
  ⟨⟨"proj", "proj", [exMeasure "bugs" "1", exMeasure "vulns" "2"]⟩⟩

def exT1 : LMap := [("team", "a")]

def exT2 : LMap := [("team", "b")]

def exT1full : LMap := [("component", "proj"), ("team", "a")]

def exT2full : LMap := [("component", "proj"), ("team", "b")]

def exAfterT1 : PrometheusExporter :=
  (exExporter.Report "proj" exT1 (some exMeasures)).state

def exAfterT2 : PrometheusExporter :=
  (exAfterT1.Report "proj" exT2 (some exMeasures)).state

/-! ### Helper lemmas about the canonical label maps -/

theorem LMap.inv_cons_keys {p : String × String} {m : LMap}
    (h : LMap.Inv (p :: m)) : ∀ k ∈ m.keys, goLt p.1 k = true := by
  intro k hk
  obtain ⟨q, hq, rfl⟩ := List.mem_map.mp hk
  exact (LMap.inv_cons_iff.mp h).1 q hq

theorem LMap.find_head_tail {p : String × String} {m : LMap}
    (h : LMap.Inv (p :: m)) : LMap.find p.1 m = none := by
  cases hf : LMap.find p.1 m with
  | none => rfl
  | some v =>
    have hmem := LMap.mem_keys_iff_find.mpr ⟨v, hf⟩
    have hlt := LMap.inv_cons_keys h _ hmem
    rw [goLt_irrefl] at hlt
    exact absurd hlt (by simp)

theorem LMap.ext {m m' : LMap} (h : m.Inv) (h' : m'.Inv)
    (he : ∀ k, LMap.find k m = LMap.find k m') : m = m' := by
  induction m generalizing m' with
  | nil =>
    cases m' with
    | nil => rfl
    | cons p t =>
      have hc := he p.1
      simp [LMap.find] at hc
  | cons p t ih =>
    cases m' with
    | nil =>
      have hc := he p.1
      simp [LMap.find] at hc
    | cons q t' =>
      obtain ⟨hp, htInv⟩ := LMap.inv_cons_iff.mp h
      obtain ⟨hq, htInv'⟩ := LMap.inv_cons_iff.mp h'
      have hpq : p.1 = q.1 := by
        by_contra hne
        have h1 := he p.1
        have h2 := he q.1
        rw [show LMap.find p.1 (p :: t) = some p.2 by simp [LMap.find]] at h1
        rw [show LMap.find p.1 (q :: t') = LMap.find p.1 t' by
          rw [LMap.find, if_neg hne]] at h1
        rw [show LMap.find q.1 (p :: t) = LMap.find q.1 t by
          rw [LMap.find, if_neg (fun e => hne (Eq.symm e))]] at h2
        rw [show LMap.find q.1 (q :: t') = some q.2 by simp [LMap.find]] at h2
        have m1 := LMap.inv_cons_keys h' _ (LMap.mem_keys_iff_find.mpr ⟨p.2, h1.symm⟩)
        have m2 := LMap.inv_cons_keys h _ (LMap.mem_keys_iff_find.mpr ⟨q.2, h2⟩)
        have hcontra := goLt_trans m1 m2
        rw [goLt_irrefl] at hcontra
        exact absurd hcontra (by simp)
      have hval : p.2 = q.2 := by
        have h1 := he p.1
        rw [show LMap.find p.1 (p :: t) = some p.2 by simp [LMap.find]] at h1
        rw [show LMap.find p.1 (q :: t') = some q.2 by
          rw [LMap.find, if_pos hpq]] at h1
        exact Option.some.inj h1
      have htl : t = t' := by
        refine ih htInv htInv' (fun k => ?_)
        by_cases e : k = p.1
        · rw [e, LMap.find_head_tail h, hpq, LMap.find_head_tail h']
        · have hk := he k
          rw [show LMap.find k (p :: t) = LMap.find k t by
            rw [LMap.find, if_neg e]] at hk
          rw [show LMap.find k (q :: t') = LMap.find k t' by
            rw [LMap.find, if_neg (hpq ▸ e)]] at hk
          exact hk
      calc p :: t = (p.1, p.2) :: t := by simp
        _ = (q.1, q.2) :: t' := by rw [hpq, hval, htl]
        _ = q :: t' := by simp

theorem LMap.find_filter (q : String → Bool) (m : LMap) (k : String) :
    LMap.find k (m.filter (fun p => q p.1)) =
      if q k then LMap.find k m else none := by
  induction m with
  | nil => simp [LMap.find]
  | cons p t ih =>
    by_cases hp : q p.1 = true
    · rw [List.filter_cons_of_pos (by simpa using hp)]
      by_cases e : k = p.1
      · rw [show LMap.find k ((p : String × String) :: t.filter (fun p => q p.1)) =
            some p.2 by rw [LMap.find, if_pos e]]
        rw [show LMap.find k (p :: t) = some p.2 by rw [LMap.find, if_pos e]]
        rw [if_pos (e ▸ hp)]
      · rw [show LMap.find k ((p : String × String) :: t.filter (fun p => q p.1)) =
            LMap.find k (t.filter (fun p => q p.1)) by rw [LMap.find, if_neg e]]
        rw [show LMap.find k (p :: t) = LMap.find k t by rw [LMap.find, if_neg e]]
        exact ih
    · rw [List.filter_cons_of_neg (by simpa using hp)]
      by_cases e : k = p.1
      · rw [ih, if_neg (by rw [e]; exact fun h => hp h)]
        rw [if_neg (by rw [e]; exact fun h => hp h)]
      · rw [ih, show LMap.find k (p :: t) = LMap.find k t by
          rw [LMap.find, if_neg e]]

theorem LMap.inv_filter (q : String × String → Bool) {m : LMap} (h : m.Inv) :
    LMap.Inv (m.filter q) :=
  List.Pairwise.sublist (List.filter_sublist m) h

/-- Filtering by a key predicate removes an inserted entry whose key
the predicate rejects, leaving the rest of the map untouched. -/
theorem LMap.filter_insert_of_neg (q : String → Bool) (m : LMap) (k v : String)
    (hk : q k = false) :
    (m.insert k v).filter (fun p => q p.1) = m.filter (fun p => q p.1) := by
  induction m with
  | nil =>
    rw [show LMap.insert k v [] = [(k, v)] from rfl]
    rw [List.filter_cons_of_neg (by simp [hk])]
  | cons p t ih =>
    by_cases e1 : k = p.1
    · rw [show LMap.insert k v (p :: t) = (k, v) :: t by
        rw [LMap.insert, if_pos e1]]
      rw [List.filter_cons_of_neg (by simp [hk]),
        List.filter_cons_of_neg (by simp [← e1, hk])]
    · by_cases e2 : goLt k p.1 = true
      · rw [show LMap.insert k v (p :: t) = (k, v) :: p :: t by
          rw [LMap.insert, if_neg e1, if_pos e2]]
        rw [List.filter_cons_of_neg (by simp [hk])]
      · rw [show LMap.insert k v (p :: t) = p :: LMap.insert k v t by
          rw [LMap.insert, if_neg e1, if_neg e2]]
        by_cases hp : q p.1 = true
        · rw [List.filter_cons_of_pos (by simpa using hp),
            List.filter_cons_of_pos (by simpa using hp), ih]
        · rw [List.filter_cons_of_neg (by simpa using hp),
            List.filter_cons_of_neg (by simpa using hp), ih]

/-! ### Helper lemmas about `findA` and `sort.SearchStrings` -/

theorem findA_eq_none_iff {α : Type} {l : List (String × α)} {k : String} :
    findA k l = none ↔ ∀ p ∈ l, p.1 ≠ k := by
  induction l with
  | nil => simp [findA]
  | cons p t ih =>
    by_cases e : k = p.1
    · simp [findA, e]
    · simp only [findA, if_neg e, List.mem_cons]
      constructor
      · intro h q hq
        rcases hq with h' | h'
        · rw [h']; exact fun hh => e hh.symm
        · exact ih.mp h q h'
      · intro h
        exact ih.mpr (fun q hq => h q (Or.inr hq))

theorem searchStrings_nil (x : String) : searchStrings [] x = 0 := rfl

theorem searchStrings_cons_pos {s x : String} (t : List String) (h : goLt s x = true) :
    searchStrings (s :: t) x = searchStrings t x + 1 := by
  unfold searchStrings
  rw [List.takeWhile_cons, if_pos h]
  simp

theorem searchStrings_cons_neg {s x : String} (t : List String) (h : ¬ goLt s x = true) :
    searchStrings (s :: t) x = 0 := by
  unfold searchStrings
  rw [List.takeWhile_cons, if_neg h]
  rfl

theorem searchStrings_spec {a : List String} {x : String}
    (h : a.Sorted (fun a b => goLe a b = true)) :
    (searchStrings a x < a.length ∧ a.getD (searchStrings a x) "" = x) ↔ x ∈ a := by
  induction a with
  | nil => simp [searchStrings_nil]
  | cons s t ih =>
    obtain ⟨hs, ht⟩ := List.sorted_cons.mp h
    by_cases hlt : goLt s x = true
    · rw [searchStrings_cons_pos t hlt]
      have hne : x ≠ s := by
        intro e
        rw [e, goLt_irrefl] at hlt
        exact absurd hlt (by simp)
      simp only [List.length_cons, Nat.add_lt_add_iff_right, List.getD_cons_succ,
        List.mem_cons]
      rw [ih ht]
      exact ⟨Or.inr, fun hh => hh.resolve_left hne⟩
    · rw [searchStrings_cons_neg t hlt]
      simp only [List.length_cons, Nat.succ_pos, true_and, List.getD_cons_zero,
        List.mem_cons]
      constructor
      · intro he
        exact Or.inl he.symm
      · rintro (he | he)
        · exact he.symm
        · have hxs : goLt x s = false := by
            simpa [goLe] using hs x he
          exact goEq_of_not_lt (Bool.eq_false_iff.mpr hlt) hxs

theorem supportsLabel_iff {pe : PrometheusExporter} {l : String}
    (h : pe.labels.Sorted (fun a b => goLe a b = true)) :
    pe.supportsLabel l = true ↔ l ∈ pe.labels := by
  unfold PrometheusExporter.supportsLabel
  simp only [Bool.and_eq_true, decide_eq_true_eq]
  exact searchStrings_spec h

/-! ### Helper lemmas about `fillDefaults` and `filterSupported` -/

theorem PrometheusExporter.fillDefaults_eq (pe : PrometheusExporter) (labels : LMap)
    (component : String) :
    pe.fillDefaults labels component =
      if pe.exportEmptyLabels then
        pe.labels.foldl (fun m l => if (LMap.find l m).isNone then LMap.insert l "" m else m)
          (LMap.insert componentNameLabel component labels)
      else LMap.insert componentNameLabel component labels := rfl

theorem LMap.inv_fillLoop (ls : List String) {m : LMap} (h : m.Inv) :
    LMap.Inv (ls.foldl
      (fun m l => if (LMap.find l m).isNone then LMap.insert l "" m else m) m) := by
  induction ls generalizing m with
  | nil => exact h
  | cons l ls ih =>
    simp only [List.foldl_cons]
    by_cases hf : (LMap.find l m).isNone = true
    · rw [if_pos hf]
      exact ih (LMap.inv_insert _ _ h)
    · rw [if_neg hf]
      exact ih h

theorem LMap.find_fillLoop (ls : List String) {m : LMap} (k : String) (h : m.Inv) :
    LMap.find k (ls.foldl
        (fun m l => if (LMap.find l m).isNone then LMap.insert l "" m else m) m) =
      match LMap.find k m with
      | some v => some v
      | none => if k ∈ ls then some "" else none := by
  induction ls generalizing m with
  | nil => cases hm : LMap.find k m <;> simp [hm]
  | cons l ls ih =>
    simp only [List.foldl_cons]
    by_cases hf : (LMap.find l m).isNone = true
    · rw [if_pos hf, ih (LMap.inv_insert l "" h), LMap.find_insert _ _ _ _ h]
      by_cases e : k = l
      · have hnone : LMap.find l m = none := Option.isNone_iff_eq_none.mp hf
        simp [e, hnone]
      · cases hm : LMap.find k m <;> simp [e, hm]
    · rw [if_neg hf, ih h]
      by_cases e : k = l
      · cases hm : LMap.find k m with
        | none =>
          rw [← e] at hf
          rw [hm] at hf
          simp at hf
        | some v => simp [hm]
      · cases hm : LMap.find k m <;> simp [e, hm]

theorem PrometheusExporter.inv_fillDefaults (pe : PrometheusExporter) {labels : LMap}
    (component : String) (h : labels.Inv) :
    LMap.Inv (pe.fillDefaults labels component) := by
  rw [PrometheusExporter.fillDefaults_eq]
  cases he : pe.exportEmptyLabels
  · simp only [Bool.false_eq_true, if_false]
    exact LMap.inv_insert _ _ h
  · simp only [if_true]
    exact LMap.inv_fillLoop _ (LMap.inv_insert _ _ h)

theorem PrometheusExporter.find_fillDefaults (pe : PrometheusExporter) {labels : LMap}
    (component k : String) (h : labels.Inv) :
    LMap.find k (pe.fillDefaults labels component) =
      match LMap.find k (LMap.insert componentNameLabel component labels) with
      | some v => some v
      | none =>
        if pe.exportEmptyLabels = true ∧ k ∈ pe.labels then some "" else none := by
  rw [PrometheusExporter.fillDefaults_eq]
  cases he : pe.exportEmptyLabels
  · simp only [Bool.false_eq_true, if_false]
    cases hm : LMap.find k (LMap.insert componentNameLabel component labels) <;>
      simp [hm, he]
  · simp only [if_true]
    rw [LMap.find_fillLoop _ _ (LMap.inv_insert _ _ h)]
    cases hm : LMap.find k (LMap.insert componentNameLabel component labels) <;>
      simp [hm, he]

theorem PrometheusExporter.inv_filterSupported (pe : PrometheusExporter) {labels : LMap}
    (h : labels.Inv) : LMap.Inv (pe.filterSupported labels) :=
  LMap.inv_filter _ h

theorem PrometheusExporter.find_filterSupported (pe : PrometheusExporter)
    (labels : LMap) (k : String) :
    LMap.find k (pe.filterSupported labels) =
      if pe.supportsLabel k then LMap.find k labels else none :=
  LMap.find_filter _ labels k

/-! ### Further shared helper lemmas -/

theorem isPromNameChar_escapeChar (c : Char) : isPromNameChar (escapeChar c) = true := by
  unfold escapeChar
  by_cases h : isPromNameChar c = true
  · rw [if_pos h]; exact h
  · rw [if_neg h]; rfl

theorem escapeChar_escapeChar (c : Char) : escapeChar (escapeChar c) = escapeChar c := by
  by_cases h : isPromNameChar c = true
  · have hc : escapeChar c = c := by unfold escapeChar; rw [if_pos h]
    rw [hc]
    exact hc
  · have hc : escapeChar c = '_' := by unfold escapeChar; rw [if_neg h]
    rw [hc]
    rfl

/-- Both the label-count-mismatch branch and the nil-measures panic
leave the exporter untouched; in every branch the caller's map has
already been mutated to the filled-and-filtered form. -/
theorem Report_callerLabels (pe : PrometheusExporter) (component : String)
    (labels : LMap) (measures : Option Measures) :
    (pe.Report component labels measures).callerLabels =
      pe.filterSupported (pe.fillDefaults labels component) := by
  unfold PrometheusExporter.Report
  by_cases h :
      (pe.filterSupported (pe.fillDefaults labels component)).length ≠ pe.labels.length
  · rw [if_pos h]
    rfl
  · rw [if_neg h]
    cases measures <;> rfl

theorem reportOne_error (pe : PrometheusExporter) (component : String) (labels : LMap)
    (m : Measure) (pm : PromMetric) (e : String)
    (hfind : findA m.metric pe.metrics = some pm)
    (herr : pe.getFloatValue pm.metricType m = .error e) :
    pe.reportOne component labels m = pe := by
  unfold PrometheusExporter.reportOne
  rw [hfind]
  simp only [herr]

/-! ## C4: the escaper's contract -/

/-- C4, counterexample: the claim quantifies over every input string,
"including the empty string", yet `escape` maps the empty string to
the empty string, which does not match the one-or-more character class
`[A-Za-z_:]+`. -/
theorem C4_counterexample :
    escapeName "" = "" ∧ matchesPromNamePlus (escapeName "") = false := by
  constructor <;> rfl

/-- C4, amended: for every input string, `escape` replaces exactly the
disallowed characters of the input by underscores (character-wise),
the output consists only of characters of the class `[A-Za-z_:]` —
hence matches `[A-Za-z_:]*`, and matches `[A-Za-z_:]+` whenever the
input is non-empty — and `escape` is idempotent; it is deterministic
because it is a pure function of its argument. -/
theorem C4_escape_contract (s : String) :
    (escapeName s).data = s.data.map escapeChar ∧
    (escapeName s).data.all isPromNameChar = true ∧
    (s ≠ "" → matchesPromNamePlus (escapeName s) = true) ∧
    escapeName (escapeName s) = escapeName s := by
  refine ⟨rfl, ?_, ?_, ?_⟩
  · rw [show (escapeName s).data = s.data.map escapeChar from rfl, List.all_eq_true]
    intro c hc
    obtain ⟨a, _, rfl⟩ := List.mem_map.mp hc
    exact isPromNameChar_escapeChar a
  · intro hne
    have hd : s.data ≠ [] := by
      intro h
      apply hne
      cases s with
      | mk d =>
        rw [show d = [] from h]
    unfold matchesPromNamePlus
    rw [Bool.and_eq_true]
    constructor
    · rw [decide_eq_true_eq]
      rw [show (escapeName s).data = s.data.map escapeChar from rfl]
      intro h
      exact hd (List.map_eq_nil_iff.mp h)
    · rw [List.all_eq_true]
      intro c hc
      obtain ⟨a, _, rfl⟩ := List.mem_map.mp hc
      exact isPromNameChar_escapeChar a
  · have hfe : escapeChar ∘ escapeChar = escapeChar := funext escapeChar_escapeChar
    show String.mk ((s.data.map escapeChar).map escapeChar) = String.mk (s.data.map escapeChar)
    rw [List.map_map, hfe]

/-- C4, witness: the amended contract applied to a concrete non-empty
input with a disallowed character. -/
theorem C4_escape_contract_witness :
    ("team/x" : String) ≠ "" ∧
    ((escapeName "team/x").data = "team/x".data.map escapeChar ∧
      (escapeName "team/x").data.all isPromNameChar = true ∧
      (("team/x" : String) ≠ "" → matchesPromNamePlus (escapeName "team/x") = true) ∧
      escapeName (escapeName "team/x") = escapeName "team/x") :=
  ⟨by decide, C4_escape_contract "team/x"⟩

/-! ## C2: the cardinality check makes the whole report a no-op -/

/-- C2: when the label map — after the component-identity label is
filled in (plus empty-string defaults when enabled) and label names
outside the LabelSet are discarded — does not have exactly as many
entries as the LabelSet, `Report` returns having mutated neither any
registered gauge series nor the per-component label memo, and no
error is surfaced (the outcome is a normal return carrying the
unchanged exporter). -/
theorem C2_size_mismatch_noop (pe : PrometheusExporter) (component : String)
    (labels : LMap) (measures : Option Measures)
    (h : (pe.filterSupported (pe.fillDefaults labels component)).length ≠
      pe.labels.length) :
    pe.Report component labels measures =
      .ok pe (pe.filterSupported (pe.fillDefaults labels component)) := by
  unfold PrometheusExporter.Report
  rw [if_pos h]

/-- C2, witness: a component supplying no tag labels while the
LabelSet is `["component", "team"]` (and empty-label export is off)
is dropped without touching the exporter. -/
theorem C2_size_mismatch_noop_witness :
    ((exExporter.filterSupported (exExporter.fillDefaults [] "proj")).length ≠
      exExporter.labels.length) ∧
    exExporter.Report "proj" [] (some exMeasures) =
      .ok exExporter (exExporter.filterSupported (exExporter.fillDefaults [] "proj")) :=
  ⟨by decide, C2_size_mismatch_noop exExporter "proj" [] (some exMeasures) (by decide)⟩

/-! ## C3: per-component fetch faults -/

/-- C3, counterexample: when the measures fetch for a component fails
(`GetMeasures` returns a nil pointer next to the logged error), the
task does **not** end before reporting: `reportComponent` goes on to
invoke `exporter.Report` with the nil measures. -/
theorem C3_counterexample :
    (exCollector.reportComponentRun exExporter (some ⟨"proj", ["team#a"]⟩) none).2 = true :=
  rfl

/-- C3, amended: a fetch fault is still isolated, but not by an early
return.  If the component fetch failed, the task panics dereferencing
the nil component before `Report` is reached; if the measures fetch
failed, `Report` is invoked and either returns as a label-cardinality
no-op or panics dereferencing the nil measures before touching any
series.  The panic is caught by the per-task `recover`, so in every
case the exporter state is unchanged and no other component's task is
blocked or aborted. -/
theorem C3_fetch_fault_isolated (c : Collector) (pe : PrometheusExporter)
    (component : Option SonarComponent) (measures : Option Measures)
    (h : component = none ∨ measures = none) :
    (c.reportComponentRun pe component measures).1.state = pe ∧
    (component = none → (c.reportComponentRun pe component measures).2 = false) := by
  cases component with
  | none => exact ⟨rfl, fun _ => rfl⟩
  | some comp =>
    have hm : measures = none := by
      rcases h with h | h
      · exact absurd h (by simp)
      · exact h
    subst hm
    refine ⟨?_, by simp⟩
    show (match pe.Report comp.key (c.tagsToLabels comp.tags) none with
      | .ok pe' _ => (TaskOutcome.completed pe', true)
      | .panicked pe' _ => (TaskOutcome.recovered pe', true)).1.state = pe
    unfold PrometheusExporter.Report
    by_cases hlen :
        (pe.filterSupported (pe.fillDefaults (c.tagsToLabels comp.tags) comp.key)).length ≠
          pe.labels.length
    · rw [if_pos hlen]
      rfl
    · rw [if_neg hlen]
      rfl

/-- C3, witness: the amended isolation statement at a concrete failed
measures fetch. -/
theorem C3_fetch_fault_isolated_witness :
    ((some (⟨"proj", ["team#a"]⟩ : SonarComponent) = none ∨ (none : Option Measures) = none) ∧
      ((exCollector.reportComponentRun exExporter (some ⟨"proj", ["team#a"]⟩) none).1.state =
        exExporter ∧
      (some (⟨"proj", ["team#a"]⟩ : SonarComponent) = none →
        (exCollector.reportComponentRun exExporter (some ⟨"proj", ["team#a"]⟩) none).2 = false))) :=
  ⟨Or.inr rfl,
    C3_fetch_fault_isolated exCollector exExporter (some ⟨"proj", ["team#a"]⟩) none (Or.inr rfl)⟩

/-! ## C1: stale-label eviction misses all but the first kind -/

/-- C1: evaluation of the code at the failing input.  The exporter has
two registered kinds, `bugs` and `vulns`; the same component is
reported first with tag labels T1 = `{team: a}` and then with
T2 = `{team: b}`, both reports passing the cardinality check and
carrying measures for both kinds.  Because the per-component memo
`componentLabels` is updated when the *first* kind (`bugs`) is
processed, the eviction comparison for the second kind (`vulns`)
already sees the new labels, deletes nothing, and the point keyed by
T1 stays live next to the T2 point — contradicting the claim (and
invariant I4); only `bugs` has its T1 point retired. -/
theorem C1_stale_point_survives :
    (findA "vulns" exAfterT2.metrics).map (fun p => p.gauge.live exT1full) = some true ∧
    (findA "vulns" exAfterT2.metrics).map (fun p => p.gauge.live exT2full) = some true ∧
    (findA "bugs" exAfterT2.metrics).map (fun p => p.gauge.live exT1full) = some false ∧
    (findA "bugs" exAfterT2.metrics).map (fun p => p.gauge.live exT2full) = some true := by
  refine ⟨?_, ?_, ?_, ?_⟩ <;> rfl

/-! ## C5: value coercion -/

/-- C5: `getFloatValue` (i) depends on the measure only through the
selected string — the direct value field when non-empty, the
period/baseline value field otherwise; for value kind `BOOL`,
(ii) `"true"` coerces to 1.0, (iii) `"false"` to 0.0 and (iv) any
string `ParseBool` rejects to 0.0 with no error; (v) for any other
kind an unparseable selected string yields an error; and (vi) inside
`Report`'s loop such an error skips exactly that one measurement: the
report over the remaining measurements is unchanged. -/
theorem C5_value_coercion :
    (∀ (pe : PrometheusExporter) (t : String) (m : Measure),
      pe.getFloatValue t m =
        pe.getFloatValue t
          ⟨m.metric, if m.value ≠ "" then m.value else m.period.value, ⟨"", false⟩⟩) ∧
    (∀ (pe : PrometheusExporter) (m : Measure),
      (if m.value ≠ "" then m.value else m.period.value) = "true" →
      pe.getFloatValue "BOOL" m = .ok (.num 1)) ∧
    (∀ (pe : PrometheusExporter) (m : Measure),
      (if m.value ≠ "" then m.value else m.period.value) = "false" →
      pe.getFloatValue "BOOL" m = .ok (.num 0)) ∧
    (∀ (pe : PrometheusExporter) (m : Measure),
      parseGoBool (if m.value ≠ "" then m.value else m.period.value) = none →
      pe.getFloatValue "BOOL" m = .ok (.num 0)) ∧
    (∀ (pe : PrometheusExporter) (t : String) (m : Measure),
      t ≠ "BOOL" →
      parseGoFloat (if m.value ≠ "" then m.value else m.period.value) = none →
      pe.getFloatValue t m =
        .error (if m.value ≠ "" then m.value else m.period.value)) ∧
    (∀ (pe : PrometheusExporter) (component ckey cname : String) (labels : LMap)
        (m : Measure) (ms : List Measure) (pm : PromMetric) (e : String),
      findA m.metric pe.metrics = some pm →
      pe.getFloatValue pm.metricType m = .error e →
      pe.Report component labels (some ⟨⟨ckey, cname, m :: ms⟩⟩) =
        pe.Report component labels (some ⟨⟨ckey, cname, ms⟩⟩)) := by
  refine ⟨?_, ?_, ?_, ?_, ?_, ?_⟩
  · intro pe t m
    unfold PrometheusExporter.getFloatValue
    by_cases hv : m.value = ""
    · simp only [hv]
      by_cases hp : m.period.value = "" <;> simp [hp]
    · simp [hv]
  · intro pe m h
    simp [PrometheusExporter.getFloatValue, h, parseGoBool]
  · intro pe m h
    simp [PrometheusExporter.getFloatValue, h, parseGoBool]
  · intro pe m h
    simp only [ne_eq, ite_not] at h
    simp [PrometheusExporter.getFloatValue, h]
  · intro pe t m ht h
    simp only [ne_eq, ite_not] at h
    simp [PrometheusExporter.getFloatValue, ht, h]
  · intro pe component ckey cname labels m ms pm e hfind herr
    unfold PrometheusExporter.Report
    by_cases hlen :
        (pe.filterSupported (pe.fillDefaults labels component)).length ≠ pe.labels.length
    · rw [if_pos hlen, if_pos hlen]
    · rw [if_neg hlen, if_neg hlen]
      show ReportOutcome.ok (List.foldl _ pe (m :: ms)) _ = ReportOutcome.ok (List.foldl _ pe ms) _
      rw [List.foldl_cons, reportOne_error pe component _ m pm e hfind herr]

/-- C5, witness: boolean and numeric coercion at concrete measures,
and the skip of a single uncoercible measurement inside a report. -/
theorem C5_value_coercion_witness :
    exExporter.getFloatValue "BOOL" (exMeasure "m" "true") = .ok (.num 1) ∧
    exExporter.getFloatValue "BOOL" (exMeasure "m" "false") = .ok (.num 0) ∧
    exExporter.getFloatValue "BOOL" (exMeasure "m" "not-a-bool") = .ok (.num 0) ∧
    exExporter.getFloatValue "INT" (⟨"m", "", ⟨"42.5", false⟩⟩ : Measure) =
      exExporter.getFloatValue "INT" (⟨"m", "42.5", ⟨"", false⟩⟩ : Measure) ∧
    exExporter.getFloatValue "INT" (exMeasure "m" "abc") = .error "abc" ∧
    exExporter.Report "proj" exT1
        (some ⟨⟨"proj", "proj", [exMeasure "bugs" "abc", exMeasure "vulns" "2"]⟩⟩) =
      exExporter.Report "proj" exT1 (some ⟨⟨"proj", "proj", [exMeasure "vulns" "2"]⟩⟩) := by
  refine ⟨?_, ?_, ?_, ?_, ?_, ?_⟩
  · exact C5_value_coercion.2.1 exExporter (exMeasure "m" "true") (by decide)
  · exact C5_value_coercion.2.2.1 exExporter (exMeasure "m" "false") (by decide)
  · exact C5_value_coercion.2.2.2.1 exExporter (exMeasure "m" "not-a-bool") (by decide)
  · exact C5_value_coercion.1 exExporter "INT" (⟨"m", "", ⟨"42.5", false⟩⟩ : Measure)
  · exact C5_value_coercion.2.2.2.2.1 exExporter "INT" (exMeasure "m" "abc")
      (by decide) rfl
  · exact C5_value_coercion.2.2.2.2.2 exExporter "proj" "proj" "proj" exT1
      (exMeasure "bugs" "abc") [exMeasure "vulns" "2"]
      ⟨⟨["component", "team"], []⟩, "INT"⟩ "abc" (by decide) rfl

/-! ## C6: which catalog entries get registered -/

theorem findA_isSome_iff_mem {α : Type} {l : List (String × α)} {k : String} :
    (findA k l).isSome = true ↔ k ∈ l.map Prod.fst := by
  rw [List.mem_map]
  constructor
  · intro h
    by_contra hc
    push_neg at hc
    have hn : findA k l = none := findA_eq_none_iff.mpr (fun p hp => hc p hp)
    rw [hn] at h
    exact absurd h (by simp)
  · rintro ⟨p, hp, hpk⟩
    cases hf : findA k l with
    | some v => rfl
    | none => exact absurd hpk (findA_eq_none_iff.mp hf p hp)

/-- C6: whenever `registerMetrics` succeeds, the returned key list is
exactly the keys of the catalog entries that were not already
registered at the moment they were processed and whose type is
supported, in catalog order (`newKeys`); already-registered and
unsupported entries are skipped silently.  In particular, a fresh
exporter given the catalog `[{key: bugs, type: INT}, {key: coverage,
type: DATA}]` registers exactly `["bugs"]`. -/
theorem C6_register_new_supported_keys :
    (∀ (pe : PrometheusExporter) (reg : PromRegistry) (catalog : List Metric)
        (names : List String),
      (pe.registerMetrics reg catalog).res = .ok names →
      names = newKeys (pe.metrics.map Prod.fst) catalog) ∧
    ((NewPrometheusExporter "sonar" [] ["team"] false).InitMetrics []
        [⟨"bugs", "INT", "Bugs", ""⟩, ⟨"coverage", "DATA", "Coverage", ""⟩]).res =
      .ok ["bugs"] := by
  constructor
  · intro pe reg catalog
    induction catalog generalizing pe reg with
    | nil =>
      intro names h
      cases h
      rfl
    | cons m rest ih =>
      intro names h
      unfold PrometheusExporter.registerMetrics at h
      unfold newKeys
      by_cases h1 : (findA m.key pe.metrics).isSome = true
      · rw [if_pos h1] at h
        rw [if_pos (findA_isSome_iff_mem.mp h1)]
        exact ih pe reg names h
      · rw [if_neg h1] at h
        rw [if_neg (fun hmem => h1 (findA_isSome_iff_mem.mpr hmem))]
        by_cases h2 : m.type ∈ unsupportedMetricTypes
        · rw [if_pos (by simp [PrometheusExporter.supportsMetric, h2])] at h
          rw [if_pos h2]
          exact ih pe reg names h
        · rw [if_neg (by simp [PrometheusExporter.supportsMetric, h2])] at h
          rw [if_neg h2]
          by_cases h3 : buildFQName pe.ns m.key ∈ reg
          · rw [if_pos h3] at h
            exact absurd h (by simp)
          · rw [if_neg h3] at h
            dsimp only at h
            rcases hrec : PrometheusExporter.registerMetrics
                { pe with metrics :=
                    pe.metrics ++ [(m.key, (⟨⟨pe.labels, []⟩, m.type⟩ : PromMetric))] }
                (buildFQName pe.ns m.key :: reg) rest with ⟨pe2, reg2, res2⟩
            rw [hrec] at h
            cases res2 with
            | error e => exact absurd h (by simp)
            | ok names2 =>
              have h2eq : names = m.key :: names2 := by
                have hinj : Except.ok (ε := String) (m.key :: names2) = Except.ok names := h
                exact (Except.ok.inj hinj).symm
              rw [h2eq]
              have hx := ih _ _ names2 (by rw [hrec])
              rw [hx]
              simp
  · rfl

/-- C6, witness: the general characterization applied to the fresh
exporter and the two-entry catalog of the claim. -/
theorem C6_register_new_supported_keys_witness :
    ((NewPrometheusExporter "sonar" [] ["team"] false).registerMetrics []
        [⟨"bugs", "INT", "Bugs", ""⟩, ⟨"coverage", "DATA", "Coverage", ""⟩]).res =
      .ok ["bugs"] ∧
    ["bugs"] =
      newKeys ((NewPrometheusExporter "sonar" [] ["team"] false).metrics.map Prod.fst)
        [⟨"bugs", "INT", "Bugs", ""⟩, ⟨"coverage", "DATA", "Coverage", ""⟩] :=
  ⟨rfl,
    C6_register_new_supported_keys.1 (NewPrometheusExporter "sonar" [] ["team"] false)
      [] [⟨"bugs", "INT", "Bugs", ""⟩, ⟨"coverage", "DATA", "Coverage", ""⟩] ["bugs"] rfl⟩

/-! ## C9: tag decoding -/

theorem leadsWith_iff {pat : List Char} : ∀ {l : List Char},
    leadsWith pat l = true ↔ ∃ t, l = pat ++ t := by
  induction pat with
  | nil =>
    intro l
    simp [leadsWith]
  | cons a as ih =>
    intro l
    cases l with
    | nil =>
      simp [leadsWith]
    | cons b bs =>
      simp only [leadsWith, Bool.and_eq_true, decide_eq_true_eq]
      constructor
      · rintro ⟨hab, h⟩
        obtain ⟨t, rfl⟩ := ih.mp h
        exact ⟨t, by rw [hab]; rfl⟩
      · rintro ⟨t, ht⟩
        rw [List.cons_append] at ht
        injection ht with hb hbs
        exact ⟨hb.symm, ih.mpr ⟨t, hbs⟩⟩

theorem splitFirst_some {sep : List Char} (hsep : sep ≠ []) :
    ∀ {s l r : List Char}, splitFirst sep s = some (l, r) →
      s = l ++ sep ++ r ∧
        ∀ l' r' : List Char, s = l' ++ sep ++ r' → l.length ≤ l'.length := by
  intro s
  induction s with
  | nil =>
    intro l r h
    unfold splitFirst at h
    rw [if_neg (by
      cases sep with
      | nil => exact absurd rfl hsep
      | cons a as => simp [leadsWith])] at h
    exact absurd h (by simp)
  | cons c cs ih =>
    intro l r h
    unfold splitFirst at h
    by_cases hl : leadsWith sep (c :: cs) = true
    · rw [if_pos hl] at h
      obtain ⟨t, ht⟩ := leadsWith_iff.mp hl
      have hlr : l = [] ∧ r = (c :: cs).drop sep.length := by
        have hinj := Option.some.inj h
        exact ⟨(congrArg Prod.fst hinj).symm, (congrArg Prod.snd hinj).symm⟩
      obtain ⟨rfl, hr⟩ := hlr
      constructor
      · rw [hr, ht, List.nil_append, List.drop_left]
      · intro l' r' _
        simp
    · rw [if_neg hl] at h
      rcases hrec : splitFirst sep cs with _ | p
      · rw [hrec] at h
        exact absurd h (by simp)
      · rw [hrec] at h
        obtain ⟨p1, p2⟩ := p
        have hlp : l = c :: p1 ∧ r = p2 := by
          have hinj := Option.some.inj h
          exact ⟨(congrArg Prod.fst hinj).symm, (congrArg Prod.snd hinj).symm⟩
        obtain ⟨rfl, rfl⟩ := hlp
        obtain ⟨hs, hmin⟩ := ih hrec
        constructor
        · rw [List.cons_append, List.cons_append, ← hs]
        · intro l' r' hdec
          cases l' with
          | nil =>
            rw [List.nil_append] at hdec
            exact absurd (leadsWith_iff.mpr ⟨r', hdec⟩) hl
          | cons d l'' =>
            rw [List.cons_append, List.cons_append] at hdec
            injection hdec with hd hrest
            have := hmin l'' r' hrest
            simpa using Nat.succ_le_succ this

theorem splitFirst_none {sep : List Char} :
    ∀ {s : List Char}, splitFirst sep s = none →
      ¬ ∃ l r : List Char, s = l ++ sep ++ r := by
  intro s
  induction s with
  | nil =>
    intro h hex
    obtain ⟨l, r, hlr⟩ := hex
    rw [List.append_assoc] at hlr
    obtain ⟨hl, hsr⟩ := List.append_eq_nil.mp hlr.symm
    obtain ⟨hsep, hr⟩ := List.append_eq_nil.mp hsr
    unfold splitFirst at h
    rw [if_pos (by rw [hsep]; rfl)] at h
    exact absurd h (by simp)
  | cons c cs ih =>
    intro h hex
    obtain ⟨l, r, hlr⟩ := hex
    unfold splitFirst at h
    by_cases hl : leadsWith sep (c :: cs) = true
    · rw [if_pos hl] at h
      exact absurd h (by simp)
    · rw [if_neg hl] at h
      rcases hrec : splitFirst sep cs with _ | p
      · cases l with
        | nil =>
          rw [List.nil_append] at hlr
          exact absurd (leadsWith_iff.mpr ⟨r, hlr⟩) hl
        | cons d l'' =>
          rw [List.cons_append, List.cons_append] at hlr
          injection hlr with hd hrest
          exact ih hrec ⟨l'', r, hrest⟩
      · rw [hrec] at h
        obtain ⟨p1, p2⟩ := p
        exact absurd h (by simp)

/-- The foldl step of `tagsToLabels` on one more tag. -/
theorem tagsToLabels_append (c : Collector) (tags : List String) (tag : String)
    (hsep : c.tagSeparator ≠ "") :
    c.tagsToLabels (tags ++ [tag]) =
      match splitFirst c.tagSeparator.data tag.data with
      | some (l, r) => LMap.insert (escapeName ⟨l⟩) (⟨r⟩ : String) (c.tagsToLabels tags)
      | none => c.tagsToLabels tags := by
  unfold Collector.tagsToLabels
  rw [if_neg hsep, if_neg hsep, List.foldl_append]
  simp only [List.foldl_cons, List.foldl_nil]

/-- C9: (i) a successful split is at the *first* occurrence of the
separator: the tag is `left ++ sep ++ right` and no decomposition has
a shorter left part; (ii) a tag in which the separator does not occur
yields no split and (iii) contributes no label; (iv) a tag whose
escaped left part is not in the recognized label set contributes
nothing to the labels that survive `Report`'s filtering. -/
theorem C9_tag_decoding :
    (∀ (sep tag : String) (l r : List Char),
      sep ≠ "" →
      splitFirst sep.data tag.data = some (l, r) →
      tag.data = l ++ sep.data ++ r ∧
        ∀ l' r' : List Char, tag.data = l' ++ sep.data ++ r' → l.length ≤ l'.length) ∧
    (∀ (sep tag : String),
      splitFirst sep.data tag.data = none →
      ¬ ∃ l r : List Char, tag.data = l ++ sep.data ++ r) ∧
    (∀ (c : Collector) (tags : List String) (tag : String),
      c.tagSeparator ≠ "" →
      splitFirst c.tagSeparator.data tag.data = none →
      c.tagsToLabels (tags ++ [tag]) = c.tagsToLabels tags) ∧
    (∀ (pe : PrometheusExporter) (c : Collector) (tags : List String) (tag : String)
        (l r : List Char),
      pe.labels.Sorted (fun a b => goLe a b = true) →
      c.tagSeparator ≠ "" →
      splitFirst c.tagSeparator.data tag.data = some (l, r) →
      escapeName ⟨l⟩ ∉ pe.labels →
      pe.filterSupported (c.tagsToLabels (tags ++ [tag])) =
        pe.filterSupported (c.tagsToLabels tags)) := by
  refine ⟨?_, ?_, ?_, ?_⟩
  · intro sep tag l r hsep h
    exact splitFirst_some (fun hd => hsep (by
      cases sep with
      | mk d => rw [show d = [] from hd])) h
  · intro sep tag h
    exact splitFirst_none h
  · intro c tags tag hsep h
    rw [tagsToLabels_append c tags tag hsep, h]
  · intro pe c tags tag l r hsort hsep h hmem
    rw [tagsToLabels_append c tags tag hsep, h]
    show (LMap.insert (escapeName ⟨l⟩) (⟨r⟩ : String) (c.tagsToLabels tags)).filter
        (fun p => pe.supportsLabel p.1) =
      (c.tagsToLabels tags).filter (fun p => pe.supportsLabel p.1)
    refine LMap.filter_insert_of_neg _ _ _ _ ?_
    cases hs : pe.supportsLabel (escapeName ⟨l⟩) with
    | false => rfl
    | true => exact absurd ((supportsLabel_iff hsort).mp hs) hmem

/-- C9, witness: splitting on the first of two separator occurrences,
a separator-free tag contributing nothing, and an unrecognized tag key
being dropped by the filter. -/
theorem C9_tag_decoding_witness :
    (("k#v#w" : String).data = "k".data ++ "#".data ++ "v#w".data ∧
      ∀ l' r' : List Char, ("k#v#w" : String).data = l' ++ "#".data ++ r' →
        ("k".data).length ≤ l'.length) ∧
    exCollector.tagsToLabels (["team#a"] ++ ["noSeparator"]) =
      exCollector.tagsToLabels ["team#a"] ∧
    exExporter.filterSupported (exCollector.tagsToLabels (["team#a"] ++ ["env#prod"])) =
      exExporter.filterSupported (exCollector.tagsToLabels ["team#a"]) :=
  ⟨C9_tag_decoding.1 "#" "k#v#w" "k".data "v#w".data (by decide) (by decide),
    C9_tag_decoding.2.2.1 exCollector ["team#a"] "noSeparator" (by decide) (by decide),
    C9_tag_decoding.2.2.2 exExporter exCollector ["team#a"] "env#prod"
      "env".data "prod".data (by decide) (by decide) (by decide) (by decide)⟩

/-! ## C10: `Report` mutates the caller's label map in place -/

/-- C10: the caller's map comes back as the filled-and-filtered map in
every branch of `Report` — also when the report is dropped for a size
mismatch: it has gained the component-identity entry set to the
component key, gained an empty-string entry for every other LabelSet
name it was missing when `exportEmptyLabels` is set, and lost every
entry whose name is not in the LabelSet. -/
theorem C10_report_mutates_caller_map (pe : PrometheusExporter) (componentKey : String)
    (labels : LMap) (measures : Option Measures)
    (hsort : pe.labels.Sorted (fun a b => goLe a b = true))
    (hcomp : componentNameLabel ∈ pe.labels)
    (hinv : labels.Inv) :
    (pe.Report componentKey labels measures).callerLabels =
        pe.filterSupported (pe.fillDefaults labels componentKey) ∧
    LMap.find componentNameLabel ((pe.Report componentKey labels measures).callerLabels) =
        some componentKey ∧
    (pe.exportEmptyLabels = true →
      ∀ l ∈ pe.labels, l ≠ componentNameLabel → LMap.find l labels = none →
        LMap.find l ((pe.Report componentKey labels measures).callerLabels) = some "") ∧
    (∀ k, k ∉ pe.labels →
      LMap.find k ((pe.Report componentKey labels measures).callerLabels) = none) := by
  have hc := Report_callerLabels pe componentKey labels measures
  refine ⟨hc, ?_, ?_, ?_⟩
  · rw [hc, PrometheusExporter.find_filterSupported,
      if_pos ((supportsLabel_iff hsort).mpr hcomp),
      PrometheusExporter.find_fillDefaults pe componentKey componentNameLabel hinv,
      LMap.find_insert _ _ _ _ hinv, if_pos rfl]
  · intro hee l hl hne hnone
    rw [hc, PrometheusExporter.find_filterSupported,
      if_pos ((supportsLabel_iff hsort).mpr hl),
      PrometheusExporter.find_fillDefaults pe componentKey l hinv,
      LMap.find_insert _ _ _ _ hinv, if_neg hne, hnone]
    simp [hee, hl]
  · intro k hk
    have hs : pe.supportsLabel k = false := by
      cases hs : pe.supportsLabel k with
      | false => rfl
      | true => exact absurd ((supportsLabel_iff hsort).mp hs) hk
    rw [hc, PrometheusExporter.find_filterSupported, if_neg (by rw [hs]; simp)]

/-- C10, witness: an exporter with LabelSet `["component", "team"]`
and empty-label export on, handed an empty caller map and a nil
measures pointer. -/
theorem C10_report_mutates_caller_map_witness :
    ((NewPrometheusExporter "sonar" [] ["team"] true).labels.Sorted
        (fun a b => goLe a b = true) ∧
      componentNameLabel ∈ (NewPrometheusExporter "sonar" [] ["team"] true).labels ∧
      LMap.Inv []) ∧
    (((NewPrometheusExporter "sonar" [] ["team"] true).Report "proj" [] none).callerLabels =
        (NewPrometheusExporter "sonar" [] ["team"] true).filterSupported
          ((NewPrometheusExporter "sonar" [] ["team"] true).fillDefaults [] "proj") ∧
      LMap.find componentNameLabel
          (((NewPrometheusExporter "sonar" [] ["team"] true).Report "proj" []
            none).callerLabels) = some "proj" ∧
      ((NewPrometheusExporter "sonar" [] ["team"] true).exportEmptyLabels = true →
        ∀ l ∈ (NewPrometheusExporter "sonar" [] ["team"] true).labels,
          l ≠ componentNameLabel → LMap.find l [] = none →
          LMap.find l (((NewPrometheusExporter "sonar" [] ["team"] true).Report "proj" []
            none).callerLabels) = some "") ∧
      (∀ k, k ∉ (NewPrometheusExporter "sonar" [] ["team"] true).labels →
        LMap.find k (((NewPrometheusExporter "sonar" [] ["team"] true).Report "proj" []
          none).callerLabels) = none)) :=
  ⟨⟨by decide, by decide, by decide⟩,
    C10_report_mutates_caller_map (NewPrometheusExporter "sonar" [] ["team"] true)
      "proj" [] none (by decide) (by decide) (by decide)⟩

/-! ## Helper lemmas for C7 and C8 -/

/-- `registerMetrics` only adds to `metrics` and to the prometheus
registry; every other exporter field is untouched. -/
theorem registerMetrics_preserves : ∀ (ms : List Metric) (pe : PrometheusExporter)
    (reg : PromRegistry),
    (pe.registerMetrics reg ms).pe.ns = pe.ns ∧
    (pe.registerMetrics reg ms).pe.labels = pe.labels ∧
    (pe.registerMetrics reg ms).pe.staticLabels = pe.staticLabels ∧
    (pe.registerMetrics reg ms).pe.exportEmptyLabels = pe.exportEmptyLabels ∧
    (pe.registerMetrics reg ms).pe.componentLabels = pe.componentLabels := by
  intro ms
  induction ms with
  | nil => exact fun pe reg => ⟨rfl, rfl, rfl, rfl, rfl⟩
  | cons m rest ih =>
    intro pe reg
    unfold PrometheusExporter.registerMetrics
    by_cases h1 : (findA m.key pe.metrics).isSome = true
    · rw [if_pos h1]
      exact ih pe reg
    · rw [if_neg h1]
      by_cases h2 : (!(pe.supportsMetric m)) = true
      · rw [if_pos h2]
        exact ih pe reg
      · rw [if_neg h2]
        by_cases h3 : buildFQName pe.ns m.key ∈ reg
        · rw [if_pos h3]
          exact ⟨rfl, rfl, rfl, rfl, rfl⟩
        · rw [if_neg h3]
          dsimp only
          rcases hrec : PrometheusExporter.registerMetrics
              { pe with metrics :=
                  pe.metrics ++ [(m.key, (⟨⟨pe.labels, []⟩, m.type⟩ : PromMetric))] }
              (buildFQName pe.ns m.key :: reg) rest with ⟨pe2, reg2, res2⟩
          have hp := ih { pe with metrics :=
              pe.metrics ++ [(m.key, (⟨⟨pe.labels, []⟩, m.type⟩ : PromMetric))] }
            (buildFQName pe.ns m.key :: reg)
          rw [hrec] at hp
          cases res2 <;> exact hp

/-- A registration collision aborts the whole init: the entries after
the colliding one are never processed, and the exporter and registry
come out exactly as after the prefix before the collision. -/
theorem registerMetrics_abort : ∀ (pre : List Metric) (pe : PrometheusExporter)
    (reg : PromRegistry) (bad : Metric) (post : List Metric) (ns1 : List String),
    (pe.registerMetrics reg pre).res = .ok ns1 →
    findA bad.key (pe.registerMetrics reg pre).pe.metrics = none →
    bad.type ∉ unsupportedMetricTypes →
    buildFQName pe.ns bad.key ∈ (pe.registerMetrics reg pre).registry →
    pe.registerMetrics reg (pre ++ bad :: post) =
      ⟨(pe.registerMetrics reg pre).pe, (pe.registerMetrics reg pre).registry,
        .error "unable to register metric"⟩ := by
  intro pre
  induction pre with
  | nil =>
    intro pe reg bad post ns1 _ hfind hsupp hreg
    have hfind' : findA bad.key pe.metrics = none := hfind
    have hreg' : buildFQName pe.ns bad.key ∈ reg := hreg
    rw [List.nil_append]
    show PrometheusExporter.registerMetrics pe reg (bad :: post) = _
    unfold PrometheusExporter.registerMetrics
    dsimp only
    rw [if_neg (by
      intro hs
      rw [hfind'] at hs
      exact absurd hs (by simp))]
    rw [if_neg (by
      show ¬ (!(pe.supportsMetric bad)) = true
      simp [PrometheusExporter.supportsMetric, hsupp])]
    rw [if_pos hreg']
  | cons m pre ih =>
    intro pe reg bad post ns1 h hfind hsupp hreg
    rw [List.cons_append]
    unfold PrometheusExporter.registerMetrics at h hfind hreg ⊢
    by_cases h1 : (findA m.key pe.metrics).isSome = true
    · simp only [if_pos h1] at h hfind hreg ⊢
      exact ih pe reg bad post ns1 h hfind hsupp hreg
    · simp only [if_neg h1] at h hfind hreg ⊢
      by_cases h2 : (!(pe.supportsMetric m)) = true
      · simp only [if_pos h2] at h hfind hreg ⊢
        exact ih pe reg bad post ns1 h hfind hsupp hreg
      · simp only [if_neg h2] at h hfind hreg ⊢
        by_cases h3 : buildFQName pe.ns m.key ∈ reg
        · simp only [if_pos h3] at h
          exact absurd h (by simp)
        · simp only [if_neg h3] at h hfind hreg ⊢
          rcases hrec : PrometheusExporter.registerMetrics
              { pe with metrics :=
                  pe.metrics ++ [(m.key, (⟨⟨pe.labels, []⟩, m.type⟩ : PromMetric))] }
              (buildFQName pe.ns m.key :: reg) pre with ⟨pe2, reg2, res2⟩
          rw [hrec] at h hfind hreg
          cases res2 with
          | error e => exact absurd h (by simp)
          | ok ns2 =>
            have hstep := ih { pe with metrics :=
                pe.metrics ++ [(m.key, (⟨⟨pe.labels, []⟩, m.type⟩ : PromMetric))] }
              (buildFQName pe.ns m.key :: reg) bad post ns2
              (by rw [hrec]) (by rw [hrec]; exact hfind) hsupp
              (by rw [hrec]; exact hreg)
            rw [hrec] at hstep
            rw [hstep]

/-- `reportOne` never touches the exporter's identity fields. -/
theorem reportOne_preserves (pe : PrometheusExporter) (component : String)
    (labels : LMap) (m : Measure) :
    (pe.reportOne component labels m).ns = pe.ns ∧
    (pe.reportOne component labels m).labels = pe.labels ∧
    (pe.reportOne component labels m).staticLabels = pe.staticLabels ∧
    (pe.reportOne component labels m).exportEmptyLabels = pe.exportEmptyLabels := by
  unfold PrometheusExporter.reportOne
  split
  · exact ⟨rfl, rfl, rfl, rfl⟩
  · split
    · exact ⟨rfl, rfl, rfl, rfl⟩
    · unfold PrometheusExporter.checkStaleLabels
      dsimp only
      split
      · exact ⟨rfl, rfl, rfl, rfl⟩
      · split
        · exact ⟨rfl, rfl, rfl, rfl⟩
        · exact ⟨rfl, rfl, rfl, rfl⟩

theorem foldl_reportOne_labels (component : String) (labels : LMap) :
    ∀ (ms : List Measure) (pe : PrometheusExporter),
    (ms.foldl (fun s m => s.reportOne component labels m) pe).labels = pe.labels := by
  intro ms
  induction ms with
  | nil => exact fun pe => rfl
  | cons m ms ih =>
    intro pe
    rw [List.foldl_cons, ih, (reportOne_preserves pe component labels m).2.1]

theorem Report_preserves_labels (pe : PrometheusExporter) (component : String)
    (labels : LMap) (measures : Option Measures) :
    (pe.Report component labels measures).state.labels = pe.labels := by
  unfold PrometheusExporter.Report
  by_cases h :
      (pe.filterSupported (pe.fillDefaults labels component)).length ≠ pe.labels.length
  · rw [if_pos h]
    rfl
  · rw [if_neg h]
    cases measures with
    | none => rfl
    | some ms => exact foldl_reportOne_labels component _ ms.component.measures pe


theorem gaugesCarry_of_pointwise (pe st : PrometheusExporter)
    (hlab : st.labels = pe.labels)
    (hmet : ∀ p ∈ st.metrics, ∃ q ∈ pe.metrics,
      p.2.gauge.labelNames = q.2.gauge.labelNames)
    (h : gaugesCarryLabelSet pe) : gaugesCarryLabelSet st := by
  intro p hp
  obtain ⟨q, hq, he⟩ := hmet p hp
  rw [he, hlab]
  exact h q hq

theorem setStep_labelNames (key : String) (labels : LMap) (v : GoFloat)
    (q : String × PromMetric) :
    ((fun p : String × PromMetric =>
      if p.1 = key then (p.1, { p.2 with gauge := p.2.gauge.setPoint labels v }) else p)
      q).2.gauge.labelNames = q.2.gauge.labelNames := by
  show (if q.1 = key then
      ((q.1, { q.2 with gauge := q.2.gauge.setPoint labels v }) : String × PromMetric)
    else q).2.gauge.labelNames = q.2.gauge.labelNames
  by_cases hqk : q.1 = key
  · rw [if_pos hqk]
    rfl
  · rw [if_neg hqk]

theorem delStep_labelNames (key : String) (old : LMap)
    (q : String × PromMetric) :
    ((fun p : String × PromMetric =>
      if p.1 = key then (p.1, { p.2 with gauge := p.2.gauge.deletePoint old }) else p)
      q).2.gauge.labelNames = q.2.gauge.labelNames := by
  show (if q.1 = key then
      ((q.1, { q.2 with gauge := q.2.gauge.deletePoint old }) : String × PromMetric)
    else q).2.gauge.labelNames = q.2.gauge.labelNames
  by_cases hqk : q.1 = key
  · rw [if_pos hqk]
    rfl
  · rw [if_neg hqk]

theorem gaugesCarry_reportOne (pe : PrometheusExporter) (component : String)
    (labels : LMap) (m : Measure) (h : gaugesCarryLabelSet pe) :
    gaugesCarryLabelSet (pe.reportOne component labels m) := by
  unfold PrometheusExporter.reportOne
  split
  · exact h
  · split
    · exact h
    · unfold PrometheusExporter.checkStaleLabels
      dsimp only
      split
      · refine gaugesCarry_of_pointwise pe _ rfl (fun p hp => ?_) h
        obtain ⟨q, hq, rfl⟩ := List.mem_map.mp hp
        exact ⟨q, hq, setStep_labelNames m.metric labels _ q⟩
      · split
        · refine gaugesCarry_of_pointwise pe _ rfl (fun p hp => ?_) h
          obtain ⟨q1, hq1, rfl⟩ := List.mem_map.mp hp
          obtain ⟨q, hq, rfl⟩ := List.mem_map.mp hq1
          refine ⟨q, hq, ?_⟩
          rw [delStep_labelNames m.metric _ _, setStep_labelNames m.metric labels _ q]
        · refine gaugesCarry_of_pointwise pe _ rfl (fun p hp => ?_) h
          obtain ⟨q, hq, rfl⟩ := List.mem_map.mp hp
          exact ⟨q, hq, setStep_labelNames m.metric labels _ q⟩

theorem gaugesCarry_foldl (component : String) (labels : LMap) :
    ∀ (ms : List Measure) (pe : PrometheusExporter),
    gaugesCarryLabelSet pe →
    gaugesCarryLabelSet (ms.foldl (fun s m => s.reportOne component labels m) pe) := by
  intro ms
  induction ms with
  | nil => exact fun pe h => h
  | cons m ms ih =>
    intro pe h
    rw [List.foldl_cons]
    exact ih _ (gaugesCarry_reportOne pe component labels m h)

theorem gaugesCarry_Report (pe : PrometheusExporter) (component : String)
    (labels : LMap) (measures : Option Measures) (h : gaugesCarryLabelSet pe) :
    gaugesCarryLabelSet (pe.Report component labels measures).state := by
  unfold PrometheusExporter.Report
  by_cases hlen :
      (pe.filterSupported (pe.fillDefaults labels component)).length ≠ pe.labels.length
  · rw [if_pos hlen]
    exact h
  · rw [if_neg hlen]
    cases measures with
    | none => exact h
    | some ms => exact gaugesCarry_foldl component _ ms.component.measures pe h

theorem gaugesCarry_register : ∀ (ms : List Metric) (pe : PrometheusExporter)
    (reg : PromRegistry), gaugesCarryLabelSet pe →
    gaugesCarryLabelSet (pe.registerMetrics reg ms).pe := by
  intro ms
  induction ms with
  | nil => exact fun pe reg h => h
  | cons m rest ih =>
    intro pe reg h
    unfold PrometheusExporter.registerMetrics
    by_cases h1 : (findA m.key pe.metrics).isSome = true
    · rw [if_pos h1]
      exact ih pe reg h
    · rw [if_neg h1]
      by_cases h2 : (!(pe.supportsMetric m)) = true
      · rw [if_pos h2]
        exact ih pe reg h
      · rw [if_neg h2]
        dsimp only
        by_cases h3 : buildFQName pe.ns m.key ∈ reg
        · rw [if_pos h3]
          exact h
        · rw [if_neg h3]
          have hpe' : gaugesCarryLabelSet { pe with metrics :=
              pe.metrics ++ [(m.key, (⟨⟨pe.labels, []⟩, m.type⟩ : PromMetric))] } := by
            intro p hp
            rcases List.mem_append.mp hp with hp | hp
            · exact h p hp
            · rw [List.mem_singleton.mp hp]
          have hrec2 := ih { pe with metrics :=
              pe.metrics ++ [(m.key, (⟨⟨pe.labels, []⟩, m.type⟩ : PromMetric))] }
            (buildFQName pe.ns m.key :: reg) hpe'
          rcases hrec : PrometheusExporter.registerMetrics
              { pe with metrics :=
                  pe.metrics ++ [(m.key, (⟨⟨pe.labels, []⟩, m.type⟩ : PromMetric))] }
              (buildFQName pe.ns m.key :: reg) rest with ⟨pe2, reg2, res2⟩
          rw [hrec] at hrec2
          cases res2 <;> exact hrec2

/-! ## C7: fatal startup conditions -/

/-- C7: startup is fatal exactly in the three stated cases.  (i) A
failed catalog fetch surfaces as an error before anything else runs;
(ii) for a fetched catalog, `Schedule` succeeds iff the registration
pass succeeded and registered a non-empty list of kinds — so a
registration collision or zero registered metrics are the only other
fatal conditions; (iii) on success the polling loop is handed exactly
the registered state (started once, by construction of the result);
and (iv) a collision aborts the whole init: entries after the
colliding one are never registered, the state stays as after the
prefix before the collision. -/
theorem C7_startup_fatal_iff :
    (∀ (c : Collector) (reg : PromRegistry) (e : String),
      c.Schedule reg (.error e) = .error ("unable to get sonar metrics: " ++ e)) ∧
    (∀ (c : Collector) (reg : PromRegistry) (ms : List Metric),
      (∃ sp, c.Schedule reg (.ok ms) = .ok sp) ↔
        ∃ names, ((NewPrometheusExporter c.ns c.staticLabels c.tagLabels
          c.exportEmptyLabels).InitMetrics reg ms).res = .ok names ∧ names ≠ []) ∧
    (∀ (c : Collector) (reg : PromRegistry) (ms : List Metric) (names : List String),
      ((NewPrometheusExporter c.ns c.staticLabels c.tagLabels
          c.exportEmptyLabels).InitMetrics reg ms).res = .ok names →
      names ≠ [] →
      c.Schedule reg (.ok ms) =
        .ok ⟨((NewPrometheusExporter c.ns c.staticLabels c.tagLabels
            c.exportEmptyLabels).InitMetrics reg ms).pe,
          ((NewPrometheusExporter c.ns c.staticLabels c.tagLabels
            c.exportEmptyLabels).InitMetrics reg ms).registry, names⟩) ∧
    (∀ (pre : List Metric) (pe : PrometheusExporter) (reg : PromRegistry) (bad : Metric)
        (post : List Metric) (ns1 : List String),
      (pe.registerMetrics reg pre).res = .ok ns1 →
      findA bad.key (pe.registerMetrics reg pre).pe.metrics = none →
      bad.type ∉ unsupportedMetricTypes →
      buildFQName pe.ns bad.key ∈ (pe.registerMetrics reg pre).registry →
      pe.registerMetrics reg (pre ++ bad :: post) =
        ⟨(pe.registerMetrics reg pre).pe, (pe.registerMetrics reg pre).registry,
          .error "unable to register metric"⟩) := by
  refine ⟨fun c reg e => rfl, ?_, ?_, registerMetrics_abort⟩
  · intro c reg ms
    unfold Collector.Schedule
    dsimp only
    rcases hr : (NewPrometheusExporter c.ns c.staticLabels c.tagLabels
        c.exportEmptyLabels).InitMetrics reg ms with ⟨pe', reg', res⟩
    cases res with
    | error e =>
      constructor
      · rintro ⟨sp, hsp⟩
        exact absurd hsp (by simp)
      · rintro ⟨names, hn, _⟩
        exact absurd hn (by simp)
    | ok names =>
      dsimp only
      by_cases hne : names.length = 0
      · rw [if_pos hne]
        have hnil : names = [] := List.length_eq_zero.mp hne
        constructor
        · rintro ⟨sp, hsp⟩
          exact absurd hsp (by simp)
        · rintro ⟨names2, hn2, hne2⟩
          have : names = names2 := Except.ok.inj hn2
          exact absurd (this ▸ hnil) hne2
      · rw [if_neg hne]
        constructor
        · intro _
          exact ⟨names, rfl, fun hnil => hne (by rw [hnil]; rfl)⟩
        · intro _
          exact ⟨⟨pe', reg', names⟩, rfl⟩
  · intro c reg ms names hok hne
    unfold Collector.Schedule
    dsimp only
    rcases hr : (NewPrometheusExporter c.ns c.staticLabels c.tagLabels
        c.exportEmptyLabels).InitMetrics reg ms with ⟨pe', reg', res⟩
    rw [hr] at hok
    cases res with
    | error e => exact absurd hok (by simp)
    | ok names2 =>
      have hn2 : names2 = names := Except.ok.inj hok
      subst hn2
      dsimp only
      rw [if_neg (fun h0 => hne (List.length_eq_zero.mp h0))]

/-- C7, witness: a successful startup handing the polling loop the
registered kinds, and a collision at the second of three catalog
entries aborting the init with the third never processed. -/
theorem C7_startup_fatal_iff_witness :
    ((NewPrometheusExporter exCollector.ns exCollector.staticLabels exCollector.tagLabels
        exCollector.exportEmptyLabels).InitMetrics [] exCatalog).res =
      .ok ["bugs", "vulns"] ∧
    exCollector.Schedule [] (.ok exCatalog) =
      .ok ⟨((NewPrometheusExporter exCollector.ns exCollector.staticLabels
          exCollector.tagLabels exCollector.exportEmptyLabels).InitMetrics [] exCatalog).pe,
        ((NewPrometheusExporter exCollector.ns exCollector.staticLabels
          exCollector.tagLabels exCollector.exportEmptyLabels).InitMetrics [] exCatalog).registry,
        ["bugs", "vulns"]⟩ ∧
    exExporter0.registerMetrics ["sonar_vulns"]
        ([⟨"bugs", "INT", "", ""⟩] ++ (⟨"vulns", "INT", "", ""⟩ : Metric) ::
          [⟨"other", "INT", "", ""⟩]) =
      ⟨(exExporter0.registerMetrics ["sonar_vulns"] [⟨"bugs", "INT", "", ""⟩]).pe,
        (exExporter0.registerMetrics ["sonar_vulns"] [⟨"bugs", "INT", "", ""⟩]).registry,
        .error "unable to register metric"⟩ :=
  ⟨rfl,
    C7_startup_fatal_iff.2.2.1 exCollector [] exCatalog ["bugs", "vulns"] rfl (by decide),
    C7_startup_fatal_iff.2.2.2 [⟨"bugs", "INT", "", ""⟩] exExporter0 ["sonar_vulns"]
      ⟨"vulns", "INT", "", ""⟩ [⟨"other", "INT", "", ""⟩] ["bugs"] rfl (by decide)
      (by decide) (by decide)⟩

/-! ## C8: the LabelSet is fixed for the registry's lifetime -/

/-- C8: the LabelSet is built once at construction — configured tag
label names escaped, the component-identity label appended, the whole
sorted (it is sorted, and a permutation of the escaped names plus the
component label); neither `InitMetrics`/`registerMetrics` nor `Report`
(nor the helpers they call — `fillDefaults` and `filterSupported` do
not touch the exporter at all) ever changes it; and every registered
series carries exactly this LabelSet as its variable label names, a
property established at construction and preserved by every
operation. -/
theorem C8_labelset_immutable :
    (∀ (ns : String) (sl : LMap) (tl : List String) (ee : Bool),
      (NewPrometheusExporter ns sl tl ee).labels =
        ((tl.map escapeName) ++ [componentNameLabel]).insertionSort
          (fun a b => goLe a b = true) ∧
      (NewPrometheusExporter ns sl tl ee).labels.Sorted (fun a b => goLe a b = true) ∧
      (NewPrometheusExporter ns sl tl ee).labels.Perm
        ((tl.map escapeName) ++ [componentNameLabel])) ∧
    (∀ (pe : PrometheusExporter) (reg : PromRegistry) (ms : List Metric),
      (pe.registerMetrics reg ms).pe.labels = pe.labels) ∧
    (∀ (pe : PrometheusExporter) (component : String) (labels : LMap)
        (measures : Option Measures),
      (pe.Report component labels measures).state.labels = pe.labels) ∧
    (∀ (ns : String) (sl : LMap) (tl : List String) (ee : Bool),
      gaugesCarryLabelSet (NewPrometheusExporter ns sl tl ee)) ∧
    (∀ (pe : PrometheusExporter) (reg : PromRegistry) (ms : List Metric),
      gaugesCarryLabelSet pe → gaugesCarryLabelSet (pe.registerMetrics reg ms).pe) ∧
    (∀ (pe : PrometheusExporter) (component : String) (labels : LMap)
        (measures : Option Measures),
      gaugesCarryLabelSet pe →
      gaugesCarryLabelSet (pe.Report component labels measures).state) := by
  refine ⟨?_, ?_, ?_, ?_, ?_, ?_⟩
  · intro ns sl tl ee
    exact ⟨rfl, List.sorted_insertionSort _ _, List.perm_insertionSort _ _⟩
  · intro pe reg ms
    exact (registerMetrics_preserves ms pe reg).2.1
  · exact Report_preserves_labels
  · intro ns sl tl ee p hp
    exact absurd hp (List.not_mem_nil p)
  · intro pe reg ms h
    exact gaugesCarry_register ms pe reg h
  · exact fun pe component labels measures h =>
      gaugesCarry_Report pe component labels measures h

/-- C8, witness: the invariant-preservation conjuncts applied to the
example exporter, whose gauges all carry `["component", "team"]`. -/
theorem C8_labelset_immutable_witness :
    gaugesCarryLabelSet exExporter ∧
    gaugesCarryLabelSet (exExporter.registerMetrics ["x"] [⟨"more", "INT", "", ""⟩]).pe ∧
    gaugesCarryLabelSet (exExporter.Report "proj" exT1 (some exMeasures)).state :=
  ⟨by decide,
    C8_labelset_immutable.2.2.2.2.1 exExporter ["x"] [⟨"more", "INT", "", ""⟩] (by decide),
    C8_labelset_immutable.2.2.2.2.2 exExporter "proj" exT1 (some exMeasures) (by decide)⟩

end SonarExporter
